import Mathlib

/-!
Verification of the perps position-management backend against its
specification.  The Rust sources are shallowly embedded:

* `rust_decimal::Decimal` values are modelled as exact rationals (`ℚ`);
  checked additions and multiplications, which fail only on 96-bit
  overflow, are modelled as exact and always succeeding.
* Solana `Pubkey`s are modelled as `Nat` identifiers; the
  `to_string`/`parse` round trip used by the Redis layer is the identity.
* `anyhow` errors are modelled as their message strings, the on-chain
  `PositionError` enum as an inductive type.
* `HashMap`s are modelled as association lists with `find?`-based lookup;
  Redis sorted sets as association lists from member to score.
* Wall-clock timestamps (`chrono`) and the byte-level signing/transport
  of instructions are outside the embedding; the fields derived from them
  are omitted from the domain records.
-/

/-! ## Domain types (backend/src/domain/position.rs) -/

inductive Side
  | Long
  | Short
  deriving Repr, DecidableEq

inductive Risk
  | Liquidated
  | Liquidating
  deriving Repr, DecidableEq

inductive PositionStatus
  | Opening
  | Open
  | Modifying
  | Closing
  | Closed
  deriving Repr, DecidableEq

/-- Domain `Position` record.  `opened_at`, `last_update` and `closed_at`
(wall-clock timestamps) are omitted from the embedding. -/
structure Position where
  position_index : Nat
  owner : Nat
  position_account : Nat
  symbol : String
  side : Side
  size : ℚ
  entry_price : ℚ
  mark_price : ℚ
  margin : ℚ
  leverage : Nat
  unrealized_pnl : ℚ
  realized_pnl : ℚ
  funding_accrued : ℚ
  liquidation_price : ℚ
  status : PositionStatus
  deriving Repr, DecidableEq

def Position.is_open (p : Position) : Bool :=
  match p.status with
  | .Open => true
  | .Opening => true
  | _ => false

/-! ## Margin calculator (backend/src/services/margin_calculator.rs) -/

namespace MarginCalculator

/-- `calculate_initial_margin`: `size * entry_price / leverage`, failing
when `leverage = 0`. -/
def calculate_initial_margin (size entry_price : ℚ) (leverage : Nat) :
    Except String ℚ :=
  if leverage = 0 then
    .error "Leverage cannot be zero"
  else
    let position_value := size * entry_price
    let leverage_decimal : ℚ := leverage
    let margin := position_value / leverage_decimal
    .ok margin

/-- `calculate_unrealized_pnl`: Long `size*(mark-entry)`, Short
`size*(entry-mark)`. -/
def calculate_unrealized_pnl (side : Side) (size mark_price entry_price : ℚ) :
    Except String ℚ :=
  let price_diff :=
    match side with
    | .Long => mark_price - entry_price
    | .Short => entry_price - mark_price
  let pnl := size * price_diff
  .ok pnl

/-- `calculate_margin_ratio`: `(collateral + upnl) / (size * mark)`,
failing when the position value is zero. -/
def calculate_margin_ratio (collateral unrealized_pnl size mark_price : ℚ) :
    Except String ℚ :=
  let position_value := size * mark_price
  if position_value = 0 then
    .error "Position value is zero"
  else
    let effective_margin := collateral + unrealized_pnl
    .ok (effective_margin / position_value)

/-- `calculate_liquidation_price_long`:
`entry_price * (1 - 1/leverage + maintenance_margin_ratio)`. -/
def calculate_liquidation_price_long (entry_price : ℚ) (leverage : Nat)
    (maintenance_margin_ratio : ℚ) : Except String ℚ :=
  if leverage = 0 then
    .error "Leverage cannot be zero"
  else
    let leverage_factor : ℚ := 1 / (leverage : ℚ)
    let adjustment := 1 - leverage_factor + maintenance_margin_ratio
    .ok (entry_price * adjustment)

/-- `calculate_liquidation_price_short`:
`entry_price * (1 + 1/leverage - maintenance_margin_ratio)`. -/
def calculate_liquidation_price_short (entry_price : ℚ) (leverage : Nat)
    (maintenance_margin_ratio : ℚ) : Except String ℚ :=
  if leverage = 0 then
    .error "Leverage cannot be zero"
  else
    let leverage_factor : ℚ := 1 / (leverage : ℚ)
    let adjustment := 1 + leverage_factor - maintenance_margin_ratio
    .ok (entry_price * adjustment)

/-- `calculate_liquidation_price`: dispatch on `side`. -/
def calculate_liquidation_price (side : Side) (entry_price : ℚ)
    (leverage : Nat) (maintenance_margin_ratio : ℚ) : Except String ℚ :=
  match side with
  | .Long => calculate_liquidation_price_long entry_price leverage
      maintenance_margin_ratio
  | .Short => calculate_liquidation_price_short entry_price leverage
      maintenance_margin_ratio

end MarginCalculator

/-! ## C5 and C9 -/

/-- Claim C5: for every entry price, every maintenance margin ratio and
every leverage ≥ 1, `calculate_liquidation_price` returns
`entry*(1 - 1/leverage + mmr)` for a Long and
`entry*(1 + 1/leverage - mmr)` for a Short, and it fails with an error
when `leverage = 0`. -/
theorem claim_C5_liquidation_price (entry mmr : ℚ) (leverage : Nat)
    (hlev : 1 ≤ leverage) :
    MarginCalculator.calculate_liquidation_price .Long entry leverage mmr =
        .ok (entry * (1 - 1 / (leverage : ℚ) + mmr)) ∧
    MarginCalculator.calculate_liquidation_price .Short entry leverage mmr =
        .ok (entry * (1 + 1 / (leverage : ℚ) - mmr)) ∧
    (∀ side : Side, ∃ msg,
      MarginCalculator.calculate_liquidation_price side entry 0 mmr =
        .error msg) := by
  have hne : leverage ≠ 0 := by omega
  refine ⟨?_, ?_, ?_⟩
  · simp [MarginCalculator.calculate_liquidation_price,
      MarginCalculator.calculate_liquidation_price_long, hne]
  · simp [MarginCalculator.calculate_liquidation_price,
      MarginCalculator.calculate_liquidation_price_short, hne]
  · intro side
    cases side <;>
      exact ⟨"Leverage cannot be zero",
        by simp [MarginCalculator.calculate_liquidation_price,
          MarginCalculator.calculate_liquidation_price_long,
          MarginCalculator.calculate_liquidation_price_short]⟩

/-- Witness for C5 at entry = 50000, mmr = 1/40, leverage = 10
(the documented test case: liquidation at 46250 long, 53750 short). -/
theorem claim_C5_witness :
    MarginCalculator.calculate_liquidation_price .Long 50000 10 (1/40) =
        .ok 46250 ∧
    MarginCalculator.calculate_liquidation_price .Short 50000 10 (1/40) =
        .ok 53750 := by
  have h := claim_C5_liquidation_price 50000 (1/40) 10 (by norm_num)
  refine ⟨?_, ?_⟩
  · rw [h.1]; norm_num
  · rw [h.2.1]; norm_num

/-- Claim C9: for every size `q`, mark `m` and entry `e`,
`unrealized_pnl Long q m e = q*(m-e)`,
`unrealized_pnl Short q m e = q*(e-m)`, and the Long value is the
negation of the Short value. -/
theorem claim_C9_pnl_sign_symmetry (q m e : ℚ) :
    MarginCalculator.calculate_unrealized_pnl .Long q m e = .ok (q * (m - e)) ∧
    MarginCalculator.calculate_unrealized_pnl .Short q m e = .ok (q * (e - m)) ∧
    MarginCalculator.calculate_unrealized_pnl .Long q m e =
      .ok (-(q * (e - m))) := by
  refine ⟨rfl, rfl, ?_⟩
  simp [MarginCalculator.calculate_unrealized_pnl]
  ring

/-! ## Liquidation alert service
(backend/src/services/liquidation_alert.rs)

A Redis sorted set is modelled as an association list from member
(a position-account id) to score (the liquidation price).
`ZRANGEBYSCORE min max` is inclusive on both bounds; iteration order is
idealised to insertion order (the claims below depend only on alert
membership and counts, which are order independent). -/

abbrev SortedSet := List (Nat × ℚ)

/-- `ZRANGEBYSCORE key min max`: members whose score lies in
`[min_score, max_score]`. -/
def zrangebyscore (s : SortedSet) (min_score max_score : ℚ) : List Nat :=
  (s.filter (fun p => decide (min_score ≤ p.2 ∧ p.2 ≤ max_score))).map Prod.fst

/-- `ZSCORE key member`: score of the first (only) entry for the member. -/
def zscore : SortedSet → Nat → Option ℚ
  | [], _ => none
  | (k, w) :: tl, member => if k = member then some w else zscore tl member

/-- `ZREM key member`: drop the member's entries. -/
def zrem : SortedSet → Nat → SortedSet
  | [], _ => []
  | (k, w) :: tl, member =>
      if k = member then zrem tl member else (k, w) :: zrem tl member

/-- Emitted alert (struct `LiquidationAlert`). -/
structure LiquidationAlert where
  position_account : Nat
  symbol : String
  side : Side
  liquidation_price : ℚ
  current_price : ℚ
  risk_type : Risk
  deriving Repr, DecidableEq

/-- `Decimal::from(u64::MAX)`, the upper bound of the long-liquidation
range query. -/
def u64MaxQ : ℚ := 18446744073709551615

/-- One of the four per-range loops of
`check_liquidations_for_price_update`: for each member of the range
result, look up its score; if the lookup succeeds, emit an alert and
remove the member from the set, otherwise skip it.  Returns the emitted
alerts (in order) and the updated set. -/
def processRange (risk : Risk) (side : Side) (symbol : String)
    (current_price : ℚ) :
    List Nat → SortedSet → List LiquidationAlert × SortedSet
  | [], s => ([], s)
  | member :: rest, s =>
    match zscore s member with
    | some liq_price =>
        let r := processRange risk side symbol current_price rest
          (zrem s member)
        (⟨member, symbol, side, liq_price, current_price, risk⟩ :: r.1, r.2)
    | none => processRange risk side symbol current_price rest s

/-- `check_liquidations_for_price_update` for one symbol: the four range
queries and four emit-and-remove loops, in source order.  The state is
the pair of long and short sorted sets for the symbol; the returned
alert list concatenates the four loops' alerts in emission order.
(The function's `Vec<Pubkey>` return value, a log of the touched
members, is not modelled.) -/
def check_liquidations_for_price_update (threshold : ℚ) (symbol : String)
    (current_price : ℚ) (longs shorts : SortedSet) :
    List LiquidationAlert × SortedSet × SortedSet :=
  let long_lower_bound := current_price * (1 - threshold)
  let long_to_liquidate := zrangebyscore longs current_price u64MaxQ
  let long_at_risk := zrangebyscore longs long_lower_bound current_price
  let r1 := processRange .Liquidated .Long symbol current_price
    long_to_liquidate longs
  let r2 := processRange .Liquidating .Long symbol current_price
    long_at_risk r1.2
  let short_upper_bound := current_price * (1 + threshold)
  let short_at_liquidation := zrangebyscore shorts 0 current_price
  let short_at_risk := zrangebyscore shorts current_price short_upper_bound
  let r3 := processRange .Liquidated .Short symbol current_price
    short_at_liquidation shorts
  let r4 := processRange .Liquidating .Short symbol current_price
    short_at_risk r3.2
  (r1.1 ++ r2.1 ++ r3.1 ++ r4.1, r2.2, r4.2)

/-! ### Sorted-set lemmas -/

theorem zscore_zrem_ne (s : SortedSet) (a b : Nat) (h : a ≠ b) :
    zscore (zrem s b) a = zscore s a := by
  induction s with
  | nil => rfl
  | cons hd tl ih =>
    obtain ⟨k, w⟩ := hd
    by_cases hb : k = b
    · subst hb
      have hba : ¬ k = a := fun hh => h hh.symm
      simp [zrem, zscore, hba, ih]
    · by_cases ha : k = a
      · subst ha
        simp [zrem, zscore, h, hb]
      · simp [zrem, zscore, hb, ha, ih]

theorem zscore_zrem_self (s : SortedSet) (a : Nat) :
    zscore (zrem s a) a = none := by
  induction s with
  | nil => rfl
  | cons hd tl ih =>
    obtain ⟨k, w⟩ := hd
    by_cases ha : k = a <;> simp [zrem, zscore, ha, ih]

theorem zscore_eq_some_of_mem {s : SortedSet} {m : Nat} {v : ℚ}
    (hnd : (s.map Prod.fst).Nodup) (hmem : (m, v) ∈ s) :
    zscore s m = some v := by
  induction s with
  | nil => simp at hmem
  | cons hd tl ih =>
    obtain ⟨k, w⟩ := hd
    rw [List.map_cons] at hnd
    have hnd' := List.nodup_cons.mp hnd
    rcases List.mem_cons.mp hmem with hh | hh
    · obtain ⟨rfl, rfl⟩ : m = k ∧ v = w := by
        simpa [Prod.ext_iff] using hh
      simp [zscore]
    · have hk : ¬ k = m := by
        intro hk
        apply hnd'.1
        rw [hk]
        exact List.mem_map.mpr ⟨(m, v), hh, rfl⟩
      simp only [zscore, hk, if_false]
      exact ih hnd'.2 hh

theorem score_unique {s : SortedSet} {m : Nat} {v w : ℚ}
    (hnd : (s.map Prod.fst).Nodup) (h1 : (m, v) ∈ s) (h2 : (m, w) ∈ s) :
    v = w := by
  have e1 := zscore_eq_some_of_mem hnd h1
  have e2 := zscore_eq_some_of_mem hnd h2
  exact Option.some_inj.mp (e1.symm.trans e2)

theorem mem_zrangebyscore_of_mem {s : SortedSet} {m : Nat} {v : ℚ}
    {lo hi : ℚ} (hmem : (m, v) ∈ s) (h1 : lo ≤ v) (h2 : v ≤ hi) :
    m ∈ zrangebyscore s lo hi := by
  unfold zrangebyscore
  exact List.mem_map_of_mem Prod.fst
    (List.mem_filter.mpr ⟨hmem, by simpa using ⟨h1, h2⟩⟩)

theorem exists_of_mem_zrangebyscore {s : SortedSet} {m : Nat} {lo hi : ℚ}
    (h : m ∈ zrangebyscore s lo hi) :
    ∃ v, (m, v) ∈ s ∧ lo ≤ v ∧ v ≤ hi := by
  unfold zrangebyscore at h
  rcases List.mem_map.mp h with ⟨⟨m', v⟩, hmem, hfst⟩
  rcases List.mem_filter.mp hmem with ⟨hmem', hcond⟩
  cases hfst
  exact ⟨v, hmem', by simpa using hcond⟩

theorem not_mem_zrangebyscore {s : SortedSet} {m : Nat} {v : ℚ} {lo hi : ℚ}
    (hnd : (s.map Prod.fst).Nodup) (hmem : (m, v) ∈ s)
    (h : ¬(lo ≤ v ∧ v ≤ hi)) : m ∉ zrangebyscore s lo hi := by
  intro hc
  rcases exists_of_mem_zrangebyscore hc with ⟨w, hw, hw1, hw2⟩
  exact h (score_unique hnd hmem hw ▸ ⟨hw1, hw2⟩)

theorem nodup_zrangebyscore {s : SortedSet} (lo hi : ℚ)
    (hnd : (s.map Prod.fst).Nodup) : (zrangebyscore s lo hi).Nodup := by
  have h1 : (s.filter fun p => decide (lo ≤ p.2 ∧ p.2 ≤ hi)).Sublist s :=
    List.filter_sublist s
  exact ((h1.map Prod.fst).nodup) hnd

/-! ### processRange lemmas -/

theorem processRange_alert_spec (r : Risk) (sd : Side) (sym : String)
    (P : ℚ) (L : List Nat) (s : SortedSet) :
    ∀ al ∈ (processRange r sd sym P L s).1,
      al.risk_type = r ∧ al.side = sd ∧ al.position_account ∈ L := by
  induction L generalizing s with
  | nil => simp [processRange]
  | cons hd tl ih =>
    intro al hal
    simp only [processRange] at hal
    cases hz : zscore s hd with
    | some v =>
      rw [hz] at hal
      simp only [List.mem_cons] at hal
      rcases hal with hal | hal
      · subst hal; exact ⟨rfl, rfl, by simp⟩
      · have := ih (zrem s hd) al hal
        exact ⟨this.1, this.2.1, List.mem_cons_of_mem _ this.2.2⟩
    | none =>
      rw [hz] at hal
      have := ih s al hal
      exact ⟨this.1, this.2.1, List.mem_cons_of_mem _ this.2.2⟩

theorem processRange_members_sublist (r : Risk) (sd : Side) (sym : String)
    (P : ℚ) (L : List Nat) (s : SortedSet) :
    ((processRange r sd sym P L s).1.map
      LiquidationAlert.position_account).Sublist L := by
  induction L generalizing s with
  | nil => simp [processRange]
  | cons hd tl ih =>
    simp only [processRange]
    cases hz : zscore s hd with
    | some v =>
      simpa using List.Sublist.cons₂ hd (ih (zrem s hd))
    | none =>
      exact List.Sublist.cons hd (ih s)

theorem processRange_alert_of_mem (r : Risk) (sd : Side) (sym : String)
    (P : ℚ) {L : List Nat} {s : SortedSet} {m : Nat} {v : ℚ}
    (hnd : L.Nodup) (hm : m ∈ L) (hs : zscore s m = some v) :
    (⟨m, sym, sd, v, P, r⟩ : LiquidationAlert) ∈
      (processRange r sd sym P L s).1 := by
  induction L generalizing s with
  | nil => simp at hm
  | cons hd tl ih =>
    simp only [processRange]
    rcases List.mem_cons.mp hm with hm' | hm'
    · subst hm'
      rw [hs]
      exact List.mem_cons_self _ _
    · have hne : hd ≠ m := by
        rintro rfl
        exact (List.nodup_cons.mp hnd).1 hm'
      cases hz : zscore s hd with
      | some w =>
        have hs' : zscore (zrem s hd) m = some v := by
          rw [zscore_zrem_ne s m hd (fun hh => hne hh.symm)]; exact hs
        exact List.mem_cons_of_mem _
          (ih (List.nodup_cons.mp hnd).2 hm' hs')
      | none =>
        exact ih (List.nodup_cons.mp hnd).2 hm' hs

theorem processRange_zscore_none (r : Risk) (sd : Side) (sym : String)
    (P : ℚ) (L : List Nat) {s : SortedSet} {m : Nat}
    (hs : zscore s m = none) :
    (∀ al ∈ (processRange r sd sym P L s).1, al.position_account ≠ m) ∧
      zscore (processRange r sd sym P L s).2 m = none := by
  induction L generalizing s with
  | nil => exact ⟨by simp [processRange], by simpa [processRange] using hs⟩
  | cons hd tl ih =>
    simp only [processRange]
    cases hz : zscore s hd with
    | some v =>
      have hne : hd ≠ m := by rintro rfl; rw [hz] at hs; cases hs
      have hs' : zscore (zrem s hd) m = none := by
        rw [zscore_zrem_ne s m hd (fun hh => hne hh.symm)]; exact hs
      have H := ih hs'
      refine ⟨?_, H.2⟩
      intro al hal
      rcases List.mem_cons.mp hal with hal | hal
      · subst hal; exact hne
      · exact H.1 al hal
    | none => exact ih hs

theorem processRange_zscore_of_not_mem (r : Risk) (sd : Side) (sym : String)
    (P : ℚ) {L : List Nat} {s : SortedSet} {m : Nat} (hm : m ∉ L) :
    zscore (processRange r sd sym P L s).2 m = zscore s m := by
  induction L generalizing s with
  | nil => simp [processRange]
  | cons hd tl ih =>
    have hne : hd ≠ m := fun hh => hm (hh ▸ List.mem_cons_self hd tl)
    have hm' : m ∉ tl := fun hh => hm (List.mem_cons_of_mem _ hh)
    simp only [processRange]
    cases hz : zscore s hd with
    | some v =>
      rw [ih hm', zscore_zrem_ne s m hd (fun hh => hne hh.symm)]
    | none =>
      exact ih hm'

theorem processRange_zscore_of_mem (r : Risk) (sd : Side) (sym : String)
    (P : ℚ) {L : List Nat} {s : SortedSet} {m : Nat} (hm : m ∈ L) :
    zscore (processRange r sd sym P L s).2 m = none := by
  induction L generalizing s with
  | nil => simp at hm
  | cons hd tl ih =>
    simp only [processRange]
    by_cases he : hd = m
    · subst he
      cases hz : zscore s hd with
      | some v =>
        by_cases hm' : hd ∈ tl
        · exact ih hm'
        · rw [processRange_zscore_of_not_mem r sd sym P hm',
            zscore_zrem_self]
      | none =>
        by_cases hm' : hd ∈ tl
        · exact ih hm'
        · rw [processRange_zscore_of_not_mem r sd sym P hm']; exact hz
    · have hm' : m ∈ tl := by
        rcases List.mem_cons.mp hm with h | h
        · exact absurd h.symm he
        · exact h
      cases hz : zscore s hd with
      | some v => exact ih hm'
      | none => exact ih hm'

theorem filter_length_le_one_of_nodup_members {l : List LiquidationAlert}
    {m : Nat} (p : LiquidationAlert → Bool)
    (hnd : (l.map LiquidationAlert.position_account).Nodup)
    (hp : ∀ al, p al = true → al.position_account = m) :
    (l.filter p).length ≤ 1 := by
  induction l with
  | nil => simp
  | cons hd tl ih =>
    rw [List.map_cons] at hnd
    have hnd' := List.nodup_cons.mp hnd
    by_cases hph : p hd
    · have hnil : tl.filter p = [] := by
        rw [List.filter_eq_nil_iff]
        intro al hal hpal
        apply hnd'.1
        rw [hp hd hph, ← hp al hpal]
        exact List.mem_map.mpr ⟨al, hal, rfl⟩
      simp [List.filter_cons, hph, hnil]
    · simp only [List.filter_cons, hph, if_false]
      exact ih hnd'.2

theorem filter_eq_nil_of_side_risk {l : List LiquidationAlert}
    {r : Risk} {sd : Side}
    (hspec : ∀ al ∈ l, al.risk_type = r ∧ al.side = sd)
    {m : Nat} {sd' : Side} {r' : Risk} (hne : sd ≠ sd' ∨ r ≠ r') :
    l.filter (fun al => decide (al.position_account = m ∧ al.side = sd' ∧
      al.risk_type = r')) = [] := by
  rw [List.filter_eq_nil_iff]
  intro al hal
  simp only [decide_eq_true_eq]
  rintro ⟨-, h2, h3⟩
  rcases hne with hne | hne
  · exact hne ((hspec al hal).2.symm.trans h2)
  · exact hne ((hspec al hal).1.symm.trans h3)

/-- Claim C1 (amended): on a price tick at price `P` with threshold `t`,
the detection pass emits a Liquidated alert for every Long member with
score in `[P, u64::MAX]` and, effectively, a Liquidating alert for every
Long member with score in `[P·(1−t), P)`; for the Short set it emits
Liquidated for every member with score in `[0, P]` and Liquidating for
every member with score in `(P, P·(1+t)]`.  A member whose score equals
`P` is caught by the Liquidated loop and removed before the Liquidating
loop reads its score, so it receives no Liquidating alert for that side,
and every member receives at most one alert per side and category. -/
theorem claim_C1_amended_detection (t P : ℚ) (sym : String)
    (longs shorts : SortedSet)
    (hndL : (longs.map Prod.fst).Nodup)
    (hndS : (shorts.map Prod.fst).Nodup) :
    (∀ m v, (m, v) ∈ longs → P ≤ v → v ≤ u64MaxQ →
      (⟨m, sym, .Long, v, P, .Liquidated⟩ : LiquidationAlert) ∈
        (check_liquidations_for_price_update t sym P longs shorts).1) ∧
    (∀ m v, (m, v) ∈ longs → P * (1 - t) ≤ v → v < P →
      (⟨m, sym, .Long, v, P, .Liquidating⟩ : LiquidationAlert) ∈
        (check_liquidations_for_price_update t sym P longs shorts).1) ∧
    (∀ m v, (m, v) ∈ shorts → 0 ≤ v → v ≤ P →
      (⟨m, sym, .Short, v, P, .Liquidated⟩ : LiquidationAlert) ∈
        (check_liquidations_for_price_update t sym P longs shorts).1) ∧
    (∀ m v, (m, v) ∈ shorts → P < v → v ≤ P * (1 + t) →
      (⟨m, sym, .Short, v, P, .Liquidating⟩ : LiquidationAlert) ∈
        (check_liquidations_for_price_update t sym P longs shorts).1) ∧
    (∀ m (sd : Side) (r : Risk),
      ((check_liquidations_for_price_update t sym P longs shorts).1.filter
        (fun al => decide (al.position_account = m ∧ al.side = sd ∧
          al.risk_type = r))).length ≤ 1) ∧
    (∀ m, (m, P) ∈ longs → P ≤ u64MaxQ →
      ∀ al ∈ (check_liquidations_for_price_update t sym P longs shorts).1,
        al.position_account = m → al.side = .Long →
          al.risk_type ≠ .Liquidating) ∧
    (∀ m, (m, P) ∈ shorts → 0 ≤ P →
      ∀ al ∈ (check_liquidations_for_price_update t sym P longs shorts).1,
        al.position_account = m → al.side = .Short →
          al.risk_type ≠ .Liquidating) := by
  have hout : (check_liquidations_for_price_update t sym P longs shorts).1 =
      (processRange .Liquidated .Long sym P
        (zrangebyscore longs P u64MaxQ) longs).1 ++
      (processRange .Liquidating .Long sym P
        (zrangebyscore longs (P * (1 - t)) P)
        (processRange .Liquidated .Long sym P
          (zrangebyscore longs P u64MaxQ) longs).2).1 ++
      (processRange .Liquidated .Short sym P
        (zrangebyscore shorts 0 P) shorts).1 ++
      (processRange .Liquidating .Short sym P
        (zrangebyscore shorts P (P * (1 + t)))
        (processRange .Liquidated .Short sym P
          (zrangebyscore shorts 0 P) shorts).2).1 := rfl
  have hs1 := processRange_alert_spec .Liquidated .Long sym P
    (zrangebyscore longs P u64MaxQ) longs
  have hs2 := processRange_alert_spec .Liquidating .Long sym P
    (zrangebyscore longs (P * (1 - t)) P)
    (processRange .Liquidated .Long sym P
      (zrangebyscore longs P u64MaxQ) longs).2
  have hs3 := processRange_alert_spec .Liquidated .Short sym P
    (zrangebyscore shorts 0 P) shorts
  have hs4 := processRange_alert_spec .Liquidating .Short sym P
    (zrangebyscore shorts P (P * (1 + t)))
    (processRange .Liquidated .Short sym P
      (zrangebyscore shorts 0 P) shorts).2
  refine ⟨?_, ?_, ?_, ?_, ?_, ?_, ?_⟩
  · -- (i) long liquidated
    intro m v hmem hge hle
    rw [hout]
    have h1 : (⟨m, sym, .Long, v, P, .Liquidated⟩ : LiquidationAlert) ∈
        (processRange .Liquidated .Long sym P
          (zrangebyscore longs P u64MaxQ) longs).1 :=
      processRange_alert_of_mem _ _ _ _
        (nodup_zrangebyscore _ _ hndL)
        (mem_zrangebyscore_of_mem hmem hge hle)
        (zscore_eq_some_of_mem hndL hmem)
    simp only [List.mem_append]
    exact Or.inl (Or.inl (Or.inl h1))
  · -- (ii) long liquidating
    intro m v hmem hge hlt
    rw [hout]
    have hnot : m ∉ zrangebyscore longs P u64MaxQ :=
      not_mem_zrangebyscore hndL hmem (fun hc => absurd hc.1 (not_le.mpr hlt))
    have hz : zscore (processRange .Liquidated .Long sym P
        (zrangebyscore longs P u64MaxQ) longs).2 m = some v := by
      rw [processRange_zscore_of_not_mem _ _ _ _ hnot]
      exact zscore_eq_some_of_mem hndL hmem
    have h2 : (⟨m, sym, .Long, v, P, .Liquidating⟩ : LiquidationAlert) ∈
        (processRange .Liquidating .Long sym P
          (zrangebyscore longs (P * (1 - t)) P)
          (processRange .Liquidated .Long sym P
            (zrangebyscore longs P u64MaxQ) longs).2).1 :=
      processRange_alert_of_mem _ _ _ _
        (nodup_zrangebyscore _ _ hndL)
        (mem_zrangebyscore_of_mem hmem hge (le_of_lt hlt))
        hz
    simp only [List.mem_append]
    exact Or.inl (Or.inl (Or.inr h2))
  · -- (iii) short liquidated
    intro m v hmem hge hle
    rw [hout]
    have h3 : (⟨m, sym, .Short, v, P, .Liquidated⟩ : LiquidationAlert) ∈
        (processRange .Liquidated .Short sym P
          (zrangebyscore shorts 0 P) shorts).1 :=
      processRange_alert_of_mem _ _ _ _
        (nodup_zrangebyscore _ _ hndS)
        (mem_zrangebyscore_of_mem hmem hge hle)
        (zscore_eq_some_of_mem hndS hmem)
    simp only [List.mem_append]
    exact Or.inl (Or.inr h3)
  · -- (iv) short liquidating
    intro m v hmem hlt hle
    rw [hout]
    have hnot : m ∉ zrangebyscore shorts 0 P :=
      not_mem_zrangebyscore hndS hmem (fun hc => absurd hc.2 (not_le.mpr hlt))
    have hz : zscore (processRange .Liquidated .Short sym P
        (zrangebyscore shorts 0 P) shorts).2 m = some v := by
      rw [processRange_zscore_of_not_mem _ _ _ _ hnot]
      exact zscore_eq_some_of_mem hndS hmem
    have h4 : (⟨m, sym, .Short, v, P, .Liquidating⟩ : LiquidationAlert) ∈
        (processRange .Liquidating .Short sym P
          (zrangebyscore shorts P (P * (1 + t)))
          (processRange .Liquidated .Short sym P
            (zrangebyscore shorts 0 P) shorts).2).1 :=
      processRange_alert_of_mem _ _ _ _
        (nodup_zrangebyscore _ _ hndS)
        (mem_zrangebyscore_of_mem hmem (le_of_lt hlt) hle)
        hz
    simp only [List.mem_append]
    exact Or.inr h4
  · -- (v) at most one alert per member, side and category
    intro m sd r
    rw [hout, List.filter_append, List.filter_append, List.filter_append,
      List.length_append, List.length_append, List.length_append]
    have hn1 : ((processRange .Liquidated .Long sym P
        (zrangebyscore longs P u64MaxQ) longs).1.map
          LiquidationAlert.position_account).Nodup :=
      (processRange_members_sublist _ _ _ _ _ _).nodup
        (nodup_zrangebyscore _ _ hndL)
    have hn2 : ((processRange .Liquidating .Long sym P
        (zrangebyscore longs (P * (1 - t)) P)
        (processRange .Liquidated .Long sym P
          (zrangebyscore longs P u64MaxQ) longs).2).1.map
          LiquidationAlert.position_account).Nodup :=
      (processRange_members_sublist _ _ _ _ _ _).nodup
        (nodup_zrangebyscore _ _ hndL)
    have hn3 : ((processRange .Liquidated .Short sym P
        (zrangebyscore shorts 0 P) shorts).1.map
          LiquidationAlert.position_account).Nodup :=
      (processRange_members_sublist _ _ _ _ _ _).nodup
        (nodup_zrangebyscore _ _ hndS)
    have hn4 : ((processRange .Liquidating .Short sym P
        (zrangebyscore shorts P (P * (1 + t)))
        (processRange .Liquidated .Short sym P
          (zrangebyscore shorts 0 P) shorts).2).1.map
          LiquidationAlert.position_account).Nodup :=
      (processRange_members_sublist _ _ _ _ _ _).nodup
        (nodup_zrangebyscore _ _ hndS)
    have hp : ∀ al : LiquidationAlert,
        (decide (al.position_account = m ∧ al.side = sd ∧
          al.risk_type = r)) = true → al.position_account = m := by
      intro al h
      exact (decide_eq_true_eq.mp h).1
    have hb1 := filter_length_le_one_of_nodup_members _ hn1 hp
    have hb2 := filter_length_le_one_of_nodup_members _ hn2 hp
    have hb3 := filter_length_le_one_of_nodup_members _ hn3 hp
    have hb4 := filter_length_le_one_of_nodup_members _ hn4 hp
    cases sd <;> cases r
    · -- Long, Liquidated: segments 2, 3, 4 are empty
      rw [filter_eq_nil_of_side_risk
          (fun al hal => ⟨(hs2 al hal).1, (hs2 al hal).2.1⟩)
          (Or.inr (by decide)),
        filter_eq_nil_of_side_risk
          (fun al hal => ⟨(hs3 al hal).1, (hs3 al hal).2.1⟩)
          (Or.inl (by decide)),
        filter_eq_nil_of_side_risk
          (fun al hal => ⟨(hs4 al hal).1, (hs4 al hal).2.1⟩)
          (Or.inl (by decide))]
      simpa using hb1
    · -- Long, Liquidating
      rw [filter_eq_nil_of_side_risk
          (fun al hal => ⟨(hs1 al hal).1, (hs1 al hal).2.1⟩)
          (Or.inr (by decide)),
        filter_eq_nil_of_side_risk
          (fun al hal => ⟨(hs3 al hal).1, (hs3 al hal).2.1⟩)
          (Or.inl (by decide)),
        filter_eq_nil_of_side_risk
          (fun al hal => ⟨(hs4 al hal).1, (hs4 al hal).2.1⟩)
          (Or.inl (by decide))]
      simpa using hb2
    · -- Short, Liquidated
      rw [filter_eq_nil_of_side_risk
          (fun al hal => ⟨(hs1 al hal).1, (hs1 al hal).2.1⟩)
          (Or.inl (by decide)),
        filter_eq_nil_of_side_risk
          (fun al hal => ⟨(hs2 al hal).1, (hs2 al hal).2.1⟩)
          (Or.inl (by decide)),
        filter_eq_nil_of_side_risk
          (fun al hal => ⟨(hs4 al hal).1, (hs4 al hal).2.1⟩)
          (Or.inr (by decide))]
      simpa using hb3
    · -- Short, Liquidating
      rw [filter_eq_nil_of_side_risk
          (fun al hal => ⟨(hs1 al hal).1, (hs1 al hal).2.1⟩)
          (Or.inl (by decide)),
        filter_eq_nil_of_side_risk
          (fun al hal => ⟨(hs2 al hal).1, (hs2 al hal).2.1⟩)
          (Or.inl (by decide)),
        filter_eq_nil_of_side_risk
          (fun al hal => ⟨(hs3 al hal).1, (hs3 al hal).2.1⟩)
          (Or.inr (by decide))]
      simpa using hb4
  · -- (vi) score-P long member gets no Liquidating alert
    intro m hmem hle al hal hm hsd
    rw [hout] at hal
    have hmrange : m ∈ zrangebyscore longs P u64MaxQ :=
      mem_zrangebyscore_of_mem hmem le_rfl hle
    have hz : zscore (processRange .Liquidated .Long sym P
        (zrangebyscore longs P u64MaxQ) longs).2 m = none :=
      processRange_zscore_of_mem _ _ _ _ hmrange
    have hnone := (processRange_zscore_none .Liquidating .Long sym P
      (zrangebyscore longs (P * (1 - t)) P) hz).1
    simp only [List.mem_append] at hal
    rcases hal with ((hal | hal) | hal) | hal
    · rw [(hs1 al hal).1]; decide
    · exact absurd hm (hnone al hal)
    · exact absurd hsd (by rw [(hs3 al hal).2.1]; decide)
    · exact absurd hsd (by rw [(hs4 al hal).2.1]; decide)
  · -- (vii) score-P short member gets no Liquidating alert
    intro m hmem hge al hal hm hsd
    rw [hout] at hal
    have hmrange : m ∈ zrangebyscore shorts 0 P :=
      mem_zrangebyscore_of_mem hmem hge le_rfl
    have hz : zscore (processRange .Liquidated .Short sym P
        (zrangebyscore shorts 0 P) shorts).2 m = none :=
      processRange_zscore_of_mem _ _ _ _ hmrange
    have hnone := (processRange_zscore_none .Liquidating .Short sym P
      (zrangebyscore shorts P (P * (1 + t))) hz).1
    simp only [List.mem_append] at hal
    rcases hal with ((hal | hal) | hal) | hal
    · exact absurd hsd (by rw [(hs1 al hal).2.1]; decide)
    · exact absurd hsd (by rw [(hs2 al hal).2.1]; decide)
    · rw [(hs3 al hal).1]; decide
    · exact absurd hm (hnone al hal)


/-- Claim C1 counterexample: the long "Liquidated" range query is
`ZRANGEBYSCORE P u64::MAX`, not `[P, +INF)`.  A Long member whose
liquidation-price score is `2^64` (representable in `Decimal`) satisfies
`score >= P` but the pass emits no alert at all for it. -/
theorem claim_C1_counterexample :
    (50000 : ℚ) ≤ 18446744073709551616 ∧
    (check_liquidations_for_price_update (1/10) "BTC-USD" 50000
      [(1, 18446744073709551616)] []).1 = [] := by
  constructor
  · norm_num
  · norm_num [check_liquidations_for_price_update, zrangebyscore,
      processRange, u64MaxQ, List.filter_cons]

/-- Witness for the amended C1 at the spec scenario numbers: price 50000,
threshold 10%, a Long member at 46250 and a Short member at 53750 each
receive a Liquidating alert. -/
theorem claim_C1_amended_witness :
    (⟨1, "BTC-USD", .Long, 46250, 50000, .Liquidating⟩ : LiquidationAlert) ∈
      (check_liquidations_for_price_update (1/10) "BTC-USD" 50000
        [(1, 46250)] [(2, 53750)]).1 ∧
    (⟨2, "BTC-USD", .Short, 53750, 50000, .Liquidating⟩ : LiquidationAlert) ∈
      (check_liquidations_for_price_update (1/10) "BTC-USD" 50000
        [(1, 46250)] [(2, 53750)]).1 := by
  have H := claim_C1_amended_detection (1/10) 50000 "BTC-USD"
    [(1, 46250)] [(2, 53750)] (by simp) (by simp)
  exact ⟨H.2.1 1 46250 (by simp) (by norm_num) (by norm_num),
    H.2.2.2.1 2 53750 (by simp) (by norm_num) (by norm_num)⟩

/-! ## On-chain codec (backend/src/services/on_chain_types.rs)

Account data is a list of bytes (`Nat`s below 256).  Borsh
(`AnchorDeserialize`) reads fixed-width integers little-endian, strings
as a u32 length prefix followed by that many UTF-8 bytes, and enums as a
single-byte variant index; trailing bytes after the record are allowed
(the code calls `deserialize`, not `try_from_slice`).  A 32-byte pubkey
is folded to its little-endian numeric value. -/

/-- UTF-8 validation and decoding as performed by `String::from_utf8`
(including the overlong/surrogate/out-of-range rejections). -/
def utf8Decode : List Nat → Option (List Char)
  | [] => some []
  | b :: rest =>
    if b ≤ 0x7F then
      (utf8Decode rest).map (fun cs => Char.ofNat b :: cs)
    else if 0xC2 ≤ b ∧ b ≤ 0xDF then
      match rest with
      | c1 :: r =>
        if 0x80 ≤ c1 ∧ c1 ≤ 0xBF then
          (utf8Decode r).map (fun cs =>
            Char.ofNat ((b - 0xC0) * 0x40 + (c1 - 0x80)) :: cs)
        else none
      | [] => none
    else if b = 0xE0 ∨ (0xE1 ≤ b ∧ b ≤ 0xEC) ∨ b = 0xED ∨
        (0xEE ≤ b ∧ b ≤ 0xEF) then
      match rest with
      | c1 :: c2 :: r =>
        if (if b = 0xE0 then 0xA0 ≤ c1 ∧ c1 ≤ 0xBF
            else if b = 0xED then 0x80 ≤ c1 ∧ c1 ≤ 0x9F
            else 0x80 ≤ c1 ∧ c1 ≤ 0xBF) ∧ 0x80 ≤ c2 ∧ c2 ≤ 0xBF then
          (utf8Decode r).map (fun cs =>
            Char.ofNat ((b - 0xE0) * 0x1000 + (c1 - 0x80) * 0x40 +
              (c2 - 0x80)) :: cs)
        else none
      | _ => none
    else if b = 0xF0 ∨ (0xF1 ≤ b ∧ b ≤ 0xF3) ∨ b = 0xF4 then
      match rest with
      | c1 :: c2 :: c3 :: r =>
        if (if b = 0xF0 then 0x90 ≤ c1 ∧ c1 ≤ 0xBF
            else if b = 0xF4 then 0x80 ≤ c1 ∧ c1 ≤ 0x8F
            else 0x80 ≤ c1 ∧ c1 ≤ 0xBF) ∧ 0x80 ≤ c2 ∧ c2 ≤ 0xBF ∧
            0x80 ≤ c3 ∧ c3 ≤ 0xBF then
          (utf8Decode r).map (fun cs =>
            Char.ofNat ((b - 0xF0) * 0x40000 + (c1 - 0x80) * 0x1000 +
              (c2 - 0x80) * 0x40 + (c3 - 0x80)) :: cs)
        else none
      | _ => none
    else none

/-- Little-endian numeric value of a byte list. -/
def leVal : List Nat → Nat
  | [] => 0
  | b :: rest => b + 256 * leVal rest

/-- Read exactly `n` bytes, returning them and the remainder. -/
def readBytes (n : Nat) (b : List Nat) : Option (List Nat × List Nat) :=
  if n ≤ b.length then some (b.take n, b.drop n) else none

/-- Read a little-endian unsigned integer of `width` bytes. -/
def readUInt (width : Nat) (b : List Nat) : Option (Nat × List Nat) :=
  (readBytes width b).map (fun p => (leVal p.1, p.2))

/-- Reinterpret a u64 value as an i64 (two's complement), as the Rust
`as i64` cast does. -/
def u64_as_i64 (v : Nat) : Int :=
  if v < 2 ^ 63 then (v : Int) else (v : Int) - 2 ^ 64

/-- Read a little-endian i64. -/
def readI64 (b : List Nat) : Option (Int × List Nat) :=
  (readUInt 8 b).map (fun p => (u64_as_i64 p.1, p.2))

inductive OnChainSide
  | Long
  | Short
  deriving Repr, DecidableEq

inductive OnChainPositionStatus
  | Opening
  | Open
  | Modifying
  | Closing
  | Closed
  deriving Repr, DecidableEq

/-- On-chain `Position` account record (pubkey owner folded to `Nat`). -/
structure OnChainPosition where
  owner : Nat
  symbol : String
  side : OnChainSide
  size : Nat
  entry_price : Nat
  margin : Nat
  leverage : Nat
  unrealized_pnl : Int
  realized_pnl : Int
  funding_accrued : Int
  liquidation_price : Nat
  last_update : Int
  status : OnChainPositionStatus
  bump : Nat
  deriving Repr, DecidableEq

/-- `OnChainPosition::DISCRIMINATOR`. -/
def POSITION_DISCRIMINATOR : List Nat :=
  [0xaa, 0xbc, 0x8f, 0xe4, 0x7a, 0x40, 0xf7, 0xd0]

/-- Borsh enum decode for `OnChainSide` (variant byte 0 or 1). -/
def decodeOnChainSide (b : List Nat) : Option (OnChainSide × List Nat) := do
  let (v, r) ← readUInt 1 b
  match v with
  | 0 => some (.Long, r)
  | 1 => some (.Short, r)
  | _ => none

/-- Borsh enum decode for `OnChainPositionStatus` (variant byte 0-4). -/
def decodeOnChainStatus (b : List Nat) :
    Option (OnChainPositionStatus × List Nat) := do
  let (v, r) ← readUInt 1 b
  match v with
  | 0 => some (.Opening, r)
  | 1 => some (.Open, r)
  | 2 => some (.Modifying, r)
  | 3 => some (.Closing, r)
  | 4 => some (.Closed, r)
  | _ => none

/-- Borsh string decode: u32 length, then UTF-8 bytes. -/
def decodeBorshString (b : List Nat) : Option (String × List Nat) := do
  let (len, r1) ← readUInt 4 b
  let (bytes, r2) ← readBytes len r1
  let cs ← utf8Decode bytes
  some (String.mk cs, r2)

/-- `OnChainPosition::deserialize`: the Borsh field sequence of the
account body (after the discriminator). -/
def decodeOnChainPosition (b : List Nat) : Option OnChainPosition := do
  let (ownerBytes, r1) ← readBytes 32 b
  let (symbol, r2) ← decodeBorshString r1
  let (side, r3) ← decodeOnChainSide r2
  let (size, r4) ← readUInt 8 r3
  let (entry_price, r5) ← readUInt 8 r4
  let (margin, r6) ← readUInt 8 r5
  let (leverage, r7) ← readUInt 2 r6
  let (upnl, r8) ← readI64 r7
  let (rpnl, r9) ← readI64 r8
  let (funding, r10) ← readI64 r9
  let (liq, r11) ← readUInt 8 r10
  let (lastUpd, r12) ← readI64 r11
  let (status, r13) ← decodeOnChainStatus r12
  let (bump, _) ← readUInt 1 r13
  some { owner := leVal ownerBytes, symbol := symbol, side := side,
         size := size, entry_price := entry_price, margin := margin,
         leverage := leverage, unrealized_pnl := upnl,
         realized_pnl := rpnl, funding_accrued := funding,
         liquidation_price := liq, last_update := lastUpd,
         status := status, bump := bump }

/-- `deserialize_position_account`: reject data shorter than 8 bytes,
then skip the first 8 bytes and Borsh-decode the remainder.  The
returned index is the hard-coded 0 of the source.  Note that the
skipped 8 bytes are never compared with `POSITION_DISCRIMINATOR`. -/
def deserialize_position_account (data : List Nat) :
    Except String (Nat × OnChainPosition) :=
  if data.length < 8 then
    .error "Account data too small"
  else
    match decodeOnChainPosition (data.drop 8) with
    | some position => .ok (0, position)
    | none => .error "Failed to deserialize Position"

/-! ## C3 -/

/-- A syntactically valid Position account body (105 bytes): zeroed
owner, empty symbol, Long side, zeroed numeric fields, status Open,
bump 0. -/
def c3ValidBody : List Nat :=
  List.replicate 32 0 ++ [0, 0, 0, 0] ++ [0] ++
  List.replicate 8 0 ++ List.replicate 8 0 ++ List.replicate 8 0 ++
  [0, 0] ++ List.replicate 8 0 ++ List.replicate 8 0 ++
  List.replicate 8 0 ++ List.replicate 8 0 ++ List.replicate 8 0 ++
  [1] ++ [0]

/-- Claim C3 counterexample: a slice whose first 8 bytes are all zero —
not the Position discriminator — decodes successfully; no
decode-mismatch error is raised for a wrong discriminator. -/
theorem claim_C3_counterexample :
    (List.replicate 8 0 ++ c3ValidBody).take 8 ≠ POSITION_DISCRIMINATOR ∧
    ∃ p, deserialize_position_account (List.replicate 8 0 ++ c3ValidBody) =
      .ok (0, p) := by
  exact ⟨by decide,
    ⟨⟨0, "", .Long, 0, 0, 0, 0, 0, 0, 0, 0, 0, .Open, 0⟩, by rfl⟩⟩

/-- Claim C3 (amended): decoding never inspects the 8 leading
discriminator bytes: it only requires that at least 8 bytes are present
(a shorter slice fails with "Account data too small", producing no
record), and two slices that differ only in their first 8 bytes decode
identically, so a wrong discriminator with a well-formed body still
yields a record.  (The discriminator is instead enforced upstream by the
`get_program_accounts` memcmp filter of the refresh scan.) -/
theorem claim_C3_amended_no_discriminator_check :
    (∀ data : List Nat, data.length < 8 →
      deserialize_position_account data = .error "Account data too small") ∧
    (∀ d1 d2 rest : List Nat, d1.length = 8 → d2.length = 8 →
      deserialize_position_account (d1 ++ rest) =
        deserialize_position_account (d2 ++ rest)) := by
  constructor
  · intro data h
    simp [deserialize_position_account, h]
  · intro d1 d2 rest h1 h2
    have hl1 : ¬ (d1 ++ rest).length < 8 := by
      simp [List.length_append, h1]
    have hl2 : ¬ (d2 ++ rest).length < 8 := by
      simp [List.length_append, h2]
    have hd1 : (d1 ++ rest).drop 8 = rest := by rw [← h1, List.drop_left]
    have hd2 : (d2 ++ rest).drop 8 = rest := by rw [← h2, List.drop_left]
    have c1 : ¬ (d1.length + rest.length < 8) := by omega
    have c2 : ¬ (d2.length + rest.length < 8) := by omega
    simp [deserialize_position_account, hd1, hd2, c1, c2]

/-- Witness for the amended C3: an 11-byte-short slice fails, and the
correct discriminator and an all-zero discriminator produce the same
decode on the body above. -/
theorem claim_C3_amended_witness :
    deserialize_position_account [1, 2, 3] = .error "Account data too small" ∧
    deserialize_position_account (POSITION_DISCRIMINATOR ++ c3ValidBody) =
      deserialize_position_account (List.replicate 8 0 ++ c3ValidBody) :=
  ⟨claim_C3_amended_no_discriminator_check.1 [1, 2, 3] (by decide),
    claim_C3_amended_no_discriminator_check.2 POSITION_DISCRIMINATOR
      (List.replicate 8 0) c3ValidBody (by decide) (by decide)⟩

/-! ## Domain conversion (`to_domain_position`) -/

/-- `Decimal::new(num, scale)`: the rational `num / 10^scale`. -/
def decimalNew (num : Int) (scale : Nat) : ℚ := (num : ℚ) / 10 ^ scale

/-- Char-level suffix strip (the suffixes involved are ASCII, so the
byte-level `str::strip_suffix` agrees with this). -/
def stripSuffixChars (s suf : List Char) : Option (List Char) :=
  if s.length ≥ suf.length ∧ s.drop (s.length - suf.length) = suf then
    some (s.take (s.length - suf.length))
  else
    none

/-- `normalize_symbol`: strip a trailing `-USDT`/`-USDC`/`-DAI` and
append `-USD`; otherwise return the symbol unchanged. -/
def normalize_symbol (symbol : String) : String :=
  let stables := ["USDT", "USDC", "DAI"]
  match stables.findSome? (fun stable =>
      (stripSuffixChars symbol.data ("-" ++ stable).data).map
        (fun base => String.mk (base ++ "-USD".data))) with
  | some out => out
  | none => symbol

/-- `OnChainPosition::to_domain_position`: fixed-point wire fields are
converted with `Decimal::new(x as i64, 6)` — the unsigned fields pass
through the wrapping `as i64` cast.  The timestamp fields derived from
`last_update` are omitted (see the module comment). -/
def to_domain_position (p : OnChainPosition) (position_account : Nat)
    (position_index : Nat) : Position :=
  let side : Side :=
    match p.side with
    | .Long => .Long
    | .Short => .Short
  let status : PositionStatus :=
    match p.status with
    | .Opening => .Opening
    | .Open => .Open
    | .Modifying => .Modifying
    | .Closing => .Closing
    | .Closed => .Closed
  let size_decimal := decimalNew (u64_as_i64 p.size) 6
  let entry_price_decimal := decimalNew (u64_as_i64 p.entry_price) 6
  let margin_decimal := decimalNew (u64_as_i64 p.margin) 6
  let unrealized_pnl_decimal := decimalNew p.unrealized_pnl 6
  let realized_pnl_decimal := decimalNew p.realized_pnl 6
  let funding_accrued_decimal := decimalNew p.funding_accrued 6
  let liquidation_price_decimal := decimalNew (u64_as_i64 p.liquidation_price) 6
  let oracle_symbol := normalize_symbol p.symbol
  { position_index := position_index, owner := p.owner,
    position_account := position_account, symbol := oracle_symbol,
    side := side, size := size_decimal,
    entry_price := entry_price_decimal, mark_price := entry_price_decimal,
    margin := margin_decimal, leverage := p.leverage,
    unrealized_pnl := unrealized_pnl_decimal,
    realized_pnl := realized_pnl_decimal,
    funding_accrued := funding_accrued_decimal,
    liquidation_price := liquidation_price_decimal, status := status }

/-! ## C6 -/

/-- An on-chain record whose `size` is `2^63`; the `as i64` cast wraps
it to `-2^63`. -/
def c6WrapPos : OnChainPosition :=
  { owner := 0, symbol := "BTC-USDT", side := .Long, size := 2 ^ 63,
    entry_price := 50000000000, margin := 5000000000, leverage := 10,
    unrealized_pnl := 0, realized_pnl := 0, funding_accrued := 0,
    liquidation_price := 46250000000, last_update := 0, status := .Open,
    bump := 0 }

/-- Claim C6 counterexample: for the u64 wire value `size = 2^63` the
resulting decimal is `-(2^63)/10^6`, not `2^63/10^6`: the conversion
goes through a wrapping `as i64` cast before `Decimal::new`. -/
theorem claim_C6_counterexample :
    (to_domain_position c6WrapPos 7 0).size ≠ (2 ^ 63 : ℚ) / 10 ^ 6 ∧
    (to_domain_position c6WrapPos 7 0).size = -((2 ^ 63 : ℚ) / 10 ^ 6) := by
  constructor
  · norm_num [to_domain_position, c6WrapPos, decimalNew, u64_as_i64]
  · norm_num [to_domain_position, c6WrapPos, decimalNew, u64_as_i64]

/-- Claim C6 (amended): conversion maps every wire field at 6-decimal
scale through `Decimal::new(· as i64, 6)`: for unsigned `u64` fields the
decimal equals `v/10^6` whenever `v < 2^63` (for larger values the
wrapping cast yields `(v - 2^64)/10^6`), and for the signed `i64` fields
the decimal always equals `w/10^6`. -/
theorem claim_C6_amended_fixed_point_scale (p : OnChainPosition)
    (acc idx : Nat) (h1 : p.size < 2 ^ 63) (h2 : p.entry_price < 2 ^ 63)
    (h3 : p.margin < 2 ^ 63) (h4 : p.liquidation_price < 2 ^ 63) :
    (to_domain_position p acc idx).size = (p.size : ℚ) / 10 ^ 6 ∧
    (to_domain_position p acc idx).entry_price =
      (p.entry_price : ℚ) / 10 ^ 6 ∧
    (to_domain_position p acc idx).margin = (p.margin : ℚ) / 10 ^ 6 ∧
    (to_domain_position p acc idx).liquidation_price =
      (p.liquidation_price : ℚ) / 10 ^ 6 ∧
    (to_domain_position p acc idx).unrealized_pnl =
      (p.unrealized_pnl : ℚ) / 10 ^ 6 ∧
    (to_domain_position p acc idx).realized_pnl =
      (p.realized_pnl : ℚ) / 10 ^ 6 ∧
    (to_domain_position p acc idx).funding_accrued =
      (p.funding_accrued : ℚ) / 10 ^ 6 ∧
    (∀ v : Nat, 2 ^ 63 ≤ v →
      decimalNew (u64_as_i64 v) 6 = ((v : ℚ) - 2 ^ 64) / 10 ^ 6) := by
  have hcast : ∀ (v : Nat), v < 2 ^ 63 → u64_as_i64 v = (v : Int) := by
    intro v h
    simp only [u64_as_i64, if_pos h]
  refine ⟨?_, ?_, ?_, ?_, ?_, ?_, ?_, ?_⟩
  · simp only [to_domain_position, decimalNew, hcast _ h1]; norm_num
  · simp only [to_domain_position, decimalNew, hcast _ h2]; norm_num
  · simp only [to_domain_position, decimalNew, hcast _ h3]; norm_num
  · simp only [to_domain_position, decimalNew, hcast _ h4]; norm_num
  · simp [to_domain_position, decimalNew]
  · simp [to_domain_position, decimalNew]
  · simp [to_domain_position, decimalNew]
  · intro v hv
    have hlt : ¬ v < 2 ^ 63 := by omega
    simp only [decimalNew, u64_as_i64, if_neg hlt]
    push_cast
    ring

/-- Witness for the amended C6 on a small record (1 unit of size at
6 dp, entry 50000, upnl -2500000 i.e. -2.5). -/
theorem claim_C6_amended_witness :
    (to_domain_position
      ⟨0, "BTC-USDT", .Long, 1000000, 50000000000, 5000000000, 10,
        -2500000, 0, 0, 46250000000, 0, .Open, 0⟩ 7 0).size = 1 ∧
    (to_domain_position
      ⟨0, "BTC-USDT", .Long, 1000000, 50000000000, 5000000000, 10,
        -2500000, 0, 0, 46250000000, 0, .Open, 0⟩ 7 0).entry_price =
      50000 ∧
    (to_domain_position
      ⟨0, "BTC-USDT", .Long, 1000000, 50000000000, 5000000000, 10,
        -2500000, 0, 0, 46250000000, 0, .Open, 0⟩ 7 0).unrealized_pnl =
      -(5 / 2) := by
  have H := claim_C6_amended_fixed_point_scale
    ⟨0, "BTC-USDT", .Long, 1000000, 50000000000, 5000000000, 10,
      -2500000, 0, 0, 46250000000, 0, .Open, 0⟩ 7 0
    (by norm_num) (by norm_num) (by norm_num) (by norm_num)
  refine ⟨?_, ?_, ?_⟩
  · rw [H.1]; norm_num
  · rw [H.2.1]; norm_num
  · rw [H.2.2.2.2.1]; norm_num

/-! ## Oracle client (backend/src/infrastructure/oracle_client.rs)

`fetch_price` is a pure function of the configuration map, the current
cache and the HTTP response.  The response is modelled at the point the
code reads it: `none` for a network or JSON-parse failure, otherwise the
`parsed[0].price` object with its three fields, each possibly missing.
The cache is an association list symbol -> price; the result pairs the
`Result` value with the cache after the call. -/

def hmLookup {α β : Type} [DecidableEq α] (l : List (α × β)) (k : α) :
    Option β :=
  match l with
  | [] => none
  | (k', v) :: tl => if k' = k then some v else hmLookup tl k

def hmInsert {α β : Type} [DecidableEq α] (l : List (α × β)) (k : α)
    (v : β) : List (α × β) :=
  match l with
  | [] => [(k, v)]
  | (k', v') :: tl =>
      if k' = k then (k, v) :: tl else (k', v') :: hmInsert tl k v

def hmRemove {α β : Type} [DecidableEq α] :
    List (α × β) → α → List (α × β)
  | [], _ => []
  | (k', v) :: tl, k =>
      if k' = k then hmRemove tl k else (k', v) :: hmRemove tl k

/-- `entry(k).or_insert_with(Vec::new).push(x)`. -/
def pushToKey {α : Type} [DecidableEq α] (l : List (α × List Nat)) (k : α)
    (x : Nat) : List (α × List Nat) :=
  match l with
  | [] => [(k, [x])]
  | (k', v) :: tl =>
      if k' = k then (k, v ++ [x]) :: tl else (k', v) :: pushToKey tl k x

/-- `if let Some(accounts) = map.get_mut(&k) { accounts.retain(|a| *a != x) }`. -/
def retainAtKey {α : Type} [DecidableEq α] (l : List (α × List Nat)) (k : α)
    (x : Nat) : List (α × List Nat) :=
  l.map (fun p =>
    if p.1 = k then (p.1, p.2.filter (fun a => decide (a ≠ x))) else p)

/-- `ZADD key score member`: update the member's score, or append it. -/
def zadd : SortedSet → Nat → ℚ → SortedSet
  | [], member, score => [(member, score)]
  | (k, w) :: tl, member, score =>
      if k = member then (member, score) :: tl
      else (k, w) :: zadd tl member score

abbrev RedisMap := List ((String × Side) × SortedSet)

def redisZadd (r : RedisMap) (key : String × Side) (member : Nat)
    (score : ℚ) : RedisMap :=
  hmInsert r key (zadd ((hmLookup r key).getD []) member score)

def redisZrem (r : RedisMap) (key : String × Side) (member : Nat) :
    RedisMap :=
  match hmLookup r key with
  | some s => hmInsert r key (zrem s member)
  | none => r

/-- The monitor's shared position state: primary map and the two
inverted indices. -/
structure PositionStore where
  positions : List (Nat × Position)
  positions_by_asset : List (String × List Nat)
  positions_by_user : List (Nat × List Nat)
  deriving Repr, DecidableEq

/-- `add_to_redis_sorted_set`. -/
def add_to_redis_sorted_set (r : RedisMap) (p : Position) : RedisMap :=
  redisZadd r (p.symbol, p.side) p.position_account p.liquidation_price

/-- `remove_from_redis_sorted_set`. -/
def remove_from_redis_sorted_set (r : RedisMap) (p : Position) : RedisMap :=
  redisZrem r (p.symbol, p.side) p.position_account

/-- `PositionMonitor::add_position`: insert into the primary map, push
the id onto both index vectors, and `ZADD` when the position is open. -/
def add_position (st : PositionStore) (r : RedisMap) (p : Position) :
    PositionStore × RedisMap :=
  let positions := hmInsert st.positions p.position_account p
  let positions_by_asset :=
    pushToKey st.positions_by_asset p.symbol p.position_account
  let positions_by_user :=
    pushToKey st.positions_by_user p.owner p.position_account
  let r' := if p.is_open then add_to_redis_sorted_set r p else r
  (⟨positions, positions_by_asset, positions_by_user⟩, r')

/-- `PositionMonitor::update_position`: replace the primary entry only. -/
def update_position (st : PositionStore) (p : Position) : PositionStore :=
  { st with positions := hmInsert st.positions p.position_account p }

/-- `PositionMonitor::remove_position`: fail with "Position not found"
when the id is absent; otherwise delete the primary entry, retain the id
out of both index vectors, and `ZREM` it from its sorted set. -/
def remove_position (st : PositionStore) (r : RedisMap)
    (position_account : Nat) : Except String (PositionStore × RedisMap) :=
  match hmLookup st.positions position_account with
  | none => .error "Position not found"
  | some p =>
    let positions := hmRemove st.positions position_account
    let positions_by_asset :=
      retainAtKey st.positions_by_asset p.symbol position_account
    let positions_by_user :=
      retainAtKey st.positions_by_user p.owner position_account
    let r' := remove_from_redis_sorted_set r p
    .ok (⟨positions, positions_by_asset, positions_by_user⟩, r')

/-! ### Store lemmas -/

theorem hmInsert_hmInsert {α β : Type} [DecidableEq α]
    (l : List (α × β)) (k : α) (v w : β) :
    hmInsert (hmInsert l k v) k w = hmInsert l k w := by
  induction l with
  | nil => simp [hmInsert]
  | cons hd tl ih =>
    obtain ⟨k', v'⟩ := hd
    by_cases hk : k' = k <;> simp [hmInsert, hk, ih]

theorem hmLookup_hmInsert_self {α β : Type} [DecidableEq α]
    (l : List (α × β)) (k : α) (v : β) :
    hmLookup (hmInsert l k v) k = some v := by
  induction l with
  | nil => simp [hmInsert, hmLookup]
  | cons hd tl ih =>
    obtain ⟨k', v'⟩ := hd
    by_cases hk : k' = k <;> simp [hmInsert, hmLookup, hk, ih]

theorem hmLookup_pushToKey_self {α : Type} [DecidableEq α]
    (l : List (α × List Nat)) (k : α) (x : Nat) :
    hmLookup (pushToKey l k x) k =
      some ((hmLookup l k).getD [] ++ [x]) := by
  induction l with
  | nil => simp [pushToKey, hmLookup]
  | cons hd tl ih =>
    obtain ⟨k', v⟩ := hd
    by_cases hk : k' = k <;> simp [pushToKey, hmLookup, hk, ih]

theorem zadd_zadd (s : SortedSet) (m : Nat) (score : ℚ) :
    zadd (zadd s m score) m score = zadd s m score := by
  induction s with
  | nil => simp [zadd]
  | cons hd tl ih =>
    obtain ⟨k, w⟩ := hd
    by_cases hk : k = m <;> simp [zadd, hk, ih]

theorem redisZadd_redisZadd (r : RedisMap) (key : String × Side)
    (m : Nat) (score : ℚ) :
    redisZadd (redisZadd r key m score) key m score =
      redisZadd r key m score := by
  unfold redisZadd
  rw [hmLookup_hmInsert_self]
  rw [hmInsert_hmInsert]
  rw [Option.getD_some, zadd_zadd]

/-! ## C8 -/

/-- A concrete open position used in the C8 counterexample. -/
def c8Pos : Position :=
  { position_index := 0, owner := 3, position_account := 7,
    symbol := "BTC-USD", side := .Long, size := 1, entry_price := 50000,
    mark_price := 50000, margin := 5000, leverage := 10,
    unrealized_pnl := 0, realized_pnl := 0, funding_accrued := 0,
    liquidation_price := 46250, status := .Open }

/-- Claim C8 counterexample: adding the same position twice duplicates
its identifier in the by-symbol index (`[7, 7]` instead of `[7]`), and
removing an identifier that is not present fails with an error instead
of succeeding. -/
theorem claim_C8_counterexample :
    hmLookup (add_position (add_position ⟨[], [], []⟩ [] c8Pos).1
        (add_position ⟨[], [], []⟩ [] c8Pos).2 c8Pos).1.positions_by_asset
      "BTC-USD" = some [7, 7] ∧
    hmLookup (add_position ⟨[], [], []⟩ [] c8Pos).1.positions_by_asset
      "BTC-USD" = some [7] ∧
    remove_position ⟨[], [], []⟩ [] 42 = .error "Position not found" := by
  refine ⟨?_, ?_, ?_⟩ <;> rfl

/-- Claim C8 (amended): `add` is idempotent on the primary map and on
the Redis sorted set, but a second `add` of the same position appends a
duplicate identifier to the by-symbol and by-owner index vectors; and
`remove` of an identifier that is not in the store fails with
"Position not found" (returning no modified state, so the store is
unchanged). -/
theorem claim_C8_amended_store_ops (st : PositionStore) (r : RedisMap)
    (p : Position) (acc : Nat) :
    ((add_position (add_position st r p).1 (add_position st r p).2
        p).1.positions = (add_position st r p).1.positions) ∧
    ((add_position (add_position st r p).1 (add_position st r p).2 p).2 =
      (add_position st r p).2) ∧
    (hmLookup (add_position (add_position st r p).1 (add_position st r p).2
        p).1.positions_by_asset p.symbol =
      some ((hmLookup st.positions_by_asset p.symbol).getD [] ++
        [p.position_account, p.position_account])) ∧
    (hmLookup (add_position (add_position st r p).1 (add_position st r p).2
        p).1.positions_by_user p.owner =
      some ((hmLookup st.positions_by_user p.owner).getD [] ++
        [p.position_account, p.position_account])) ∧
    (hmLookup st.positions acc = none →
      remove_position st r acc = .error "Position not found") := by
  refine ⟨?_, ?_, ?_, ?_, ?_⟩
  · simp [add_position, hmInsert_hmInsert]
  · simp only [add_position]
    by_cases ho : p.is_open <;>
      simp [ho, add_to_redis_sorted_set, redisZadd_redisZadd]
  · simp only [add_position]
    rw [hmLookup_pushToKey_self, hmLookup_pushToKey_self]
    simp
  · simp only [add_position]
    rw [hmLookup_pushToKey_self, hmLookup_pushToKey_self]
    simp
  · intro h
    simp [remove_position, h]

/-- Witness for the amended C8 on the concrete position and an absent
identifier. -/
theorem claim_C8_amended_witness :
    ((add_position (add_position ⟨[], [], []⟩ [] c8Pos).1
        (add_position ⟨[], [], []⟩ [] c8Pos).2 c8Pos).1.positions =
      (add_position ⟨[], [], []⟩ [] c8Pos).1.positions) ∧
    remove_position ⟨[], [], []⟩ [] 42 = .error "Position not found" :=
  ⟨(claim_C8_amended_store_ops ⟨[], [], []⟩ [] c8Pos 42).1,
    (claim_C8_amended_store_ops ⟨[], [], []⟩ [] c8Pos 42).2.2.2.2 rfl⟩

/-! ## On-chain refresh (refresh_positions_from_chain)

A scanned account is a pair (pubkey, account data bytes); the RPC
memcmp filter is upstream of the function, so the account list is
arbitrary.  The "seen" set is built exactly as in the source: a pubkey
is seen when its account data deserializes. -/

/-- Identifiers inserted into `seen_positions` during a cycle. -/
def seen_of (accounts : List (Nat × List Nat)) : List Nat :=
  accounts.filterMap (fun a =>
    match deserialize_position_account a.2 with
    | .ok _ => some a.1
    | .error _ => none)

/-- The decode-and-register loop of `refresh_positions_from_chain`:
decode each account, convert it, and `update` (when the id is present)
or `add` it; failures are logged and skipped. -/
def refresh_scan :
    List (Nat × List Nat) → PositionStore × RedisMap →
      PositionStore × RedisMap
  | [], sr => sr
  | (pk, data) :: rest, (st, r) =>
    match deserialize_position_account data with
    | .ok (idx, ocp) =>
      let pos := to_domain_position ocp pk idx
      if (hmLookup st.positions pos.position_account).isSome then
        refresh_scan rest (update_position st pos, r)
      else
        refresh_scan rest (add_position st r pos)
    | .error _ => refresh_scan rest (st, r)

/-- The stale-position sweep: every snapshot position that is open but
unseen is removed (errors from `remove_position` are ignored). -/
def refresh_sweep (seen : List Nat) :
    List Position → PositionStore × RedisMap → PositionStore × RedisMap
  | [], sr => sr
  | p :: rest, (st, r) =>
    if p.position_account ∉ seen ∧ p.is_open then
      match remove_position st r p.position_account with
      | .ok sr' => refresh_sweep seen rest sr'
      | .error _ => refresh_sweep seen rest (st, r)
    else refresh_sweep seen rest (st, r)

/-- `refresh_positions_from_chain`: scan phase, then sweep over the
snapshot of all stored positions. -/
def refresh_positions_from_chain (st : PositionStore) (r : RedisMap)
    (accounts : List (Nat × List Nat)) : PositionStore × RedisMap :=
  let sr1 := refresh_scan accounts (st, r)
  let all_positions := sr1.1.positions.map Prod.snd
  refresh_sweep (seen_of accounts) all_positions sr1

/-- Members of one sorted set of the liquidation index. -/
def membersOf (r : RedisMap) (key : String × Side) : List Nat :=
  ((hmLookup r key).getD []).map Prod.fst

/-! ### Association-list effect lemmas -/

theorem hmLookup_hmInsert_ne {α β : Type} [DecidableEq α]
    (l : List (α × β)) {k k' : α} (v : β) (h : k ≠ k') :
    hmLookup (hmInsert l k v) k' = hmLookup l k' := by
  induction l with
  | nil => simp [hmInsert, hmLookup, h]
  | cons hd tl ih =>
    obtain ⟨k0, v0⟩ := hd
    by_cases hk : k0 = k
    · subst hk
      simp [hmInsert, hmLookup, h]
    · simp [hmInsert, hmLookup, hk, ih]

theorem hmLookup_hmRemove_self {α β : Type} [DecidableEq α]
    (l : List (α × β)) (k : α) : hmLookup (hmRemove l k) k = none := by
  induction l with
  | nil => rfl
  | cons hd tl ih =>
    obtain ⟨k0, v0⟩ := hd
    by_cases hk : k0 = k <;> simp [hmRemove, hmLookup, hk, ih]

theorem hmLookup_hmRemove_ne {α β : Type} [DecidableEq α]
    (l : List (α × β)) {k k' : α} (h : k ≠ k') :
    hmLookup (hmRemove l k) k' = hmLookup l k' := by
  induction l with
  | nil => rfl
  | cons hd tl ih =>
    obtain ⟨k0, v0⟩ := hd
    by_cases hk : k0 = k
    · subst hk
      have h2 : ¬ k0 = k' := h
      simp [hmRemove, hmLookup, h2, ih]
    · by_cases hk' : k0 = k'
      · subst hk'
        simp [hmRemove, hmLookup, Ne.symm h, ih]
      · simp [hmRemove, hmLookup, hk, hk', ih]

theorem hmRemove_sublist {α β : Type} [DecidableEq α]
    (l : List (α × β)) (k : α) : (hmRemove l k).Sublist l := by
  induction l with
  | nil => simp [hmRemove]
  | cons hd tl ih =>
    obtain ⟨k0, v0⟩ := hd
    by_cases hk : k0 = k
    · simpa [hmRemove, hk] using ih.cons (k0, v0)
    · simpa [hmRemove, hk] using ih.cons₂ (k0, v0)

theorem mem_hmInsert {α β : Type} [DecidableEq α]
    {l : List (α × β)} {k : α} {v : β} {kv : α × β}
    (h : kv ∈ hmInsert l k v) : kv = (k, v) ∨ kv ∈ l := by
  induction l with
  | nil => simpa [hmInsert] using h
  | cons hd tl ih =>
    obtain ⟨k0, v0⟩ := hd
    by_cases hk : k0 = k
    · subst hk
      simp only [hmInsert, if_pos rfl] at h
      rcases List.mem_cons.mp h with h | h
      · exact Or.inl h
      · exact Or.inr (List.mem_cons_of_mem _ h)
    · simp only [hmInsert, if_neg hk] at h
      rcases List.mem_cons.mp h with h | h
      · exact Or.inr (h ▸ List.mem_cons_self _ _)
      · rcases ih h with h | h
        · exact Or.inl h
        · exact Or.inr (List.mem_cons_of_mem _ h)

theorem mem_hmRemove {α β : Type} [DecidableEq α]
    {l : List (α × β)} {k : α} {kv : α × β}
    (h : kv ∈ hmRemove l k) : kv ∈ l :=
  (hmRemove_sublist l k).mem h

theorem nodup_keys_hmInsert {α β : Type} [DecidableEq α]
    (l : List (α × β)) (k : α) (v : β)
    (h : (l.map Prod.fst).Nodup) :
    ((hmInsert l k v).map Prod.fst).Nodup := by
  induction l with
  | nil => simp [hmInsert]
  | cons hd tl ih =>
    obtain ⟨k0, v0⟩ := hd
    rw [List.map_cons] at h
    have h' := List.nodup_cons.mp h
    by_cases hk : k0 = k
    · subst hk
      simpa [hmInsert] using h
    · rw [hmInsert, if_neg hk, List.map_cons, List.nodup_cons]
      refine ⟨?_, ih h'.2⟩
      intro hc
      rcases List.mem_map.mp hc with ⟨kv, hkv, hfst⟩
      rcases mem_hmInsert hkv with rfl | hkv'
      · exact hk hfst.symm
      · exact h'.1 (hfst ▸ List.mem_map_of_mem Prod.fst hkv')

theorem nodup_keys_hmRemove {α β : Type} [DecidableEq α]
    (l : List (α × β)) (k : α) (h : (l.map Prod.fst).Nodup) :
    ((hmRemove l k).map Prod.fst).Nodup :=
  (((hmRemove_sublist l k)).map Prod.fst).nodup h

theorem hmLookup_mem {α β : Type} [DecidableEq α]
    {l : List (α × β)} {k : α} {v : β} (h : hmLookup l k = some v) :
    (k, v) ∈ l := by
  induction l with
  | nil => cases h
  | cons hd tl ih =>
    obtain ⟨k0, v0⟩ := hd
    by_cases hk : k0 = k
    · subst hk
      rw [hmLookup, if_pos rfl] at h
      exact (Option.some_inj.mp h) ▸ List.mem_cons_self _ _
    · rw [hmLookup, if_neg hk] at h
      exact List.mem_cons_of_mem _ (ih h)

theorem mem_of_mem_pushToKey {α : Type} [DecidableEq α]
    {l : List (α × List Nat)} {k k' : α} {x y : Nat}
    (h : x ∈ (hmLookup (pushToKey l k y) k').getD []) :
    x = y ∨ x ∈ (hmLookup l k').getD [] := by
  induction l with
  | nil =>
    by_cases hk : k = k'
    · subst hk
      simp only [pushToKey, hmLookup, if_pos rfl, Option.getD_some] at h
      exact Or.inl (List.mem_singleton.mp h)
    · rw [pushToKey, hmLookup, if_neg hk] at h
      simp [hmLookup] at h
  | cons hd tl ih =>
    obtain ⟨k0, v0⟩ := hd
    by_cases hk : k0 = k
    · subst hk
      by_cases hk' : k0 = k'
      · subst hk'
        simp only [pushToKey, if_pos rfl, hmLookup, Option.getD_some] at h ⊢
        rcases List.mem_append.mp h with h | h
        · exact Or.inr h
        · exact Or.inl (List.mem_singleton.mp h)
      · simp only [pushToKey, if_pos rfl, hmLookup, if_neg hk'] at h ⊢
        exact Or.inr h
    · by_cases hk' : k0 = k'
      · subst hk'
        simp only [pushToKey, if_neg hk, hmLookup, if_pos rfl,
          Option.getD_some] at h ⊢
        exact Or.inr h
      · simp only [pushToKey, if_neg hk, hmLookup, if_neg hk'] at h ⊢
        exact ih h

theorem hmLookup_retainAtKey_ne {α : Type} [DecidableEq α]
    (l : List (α × List Nat)) {k k' : α} (y : Nat) (h : k' ≠ k) :
    hmLookup (retainAtKey l k y) k' = hmLookup l k' := by
  induction l with
  | nil => rfl
  | cons hd tl ih =>
    obtain ⟨k0, v0⟩ := hd
    simp only [retainAtKey, List.map_cons, decide_not] at ih ⊢
    by_cases hk : k0 = k
    · subst hk
      rw [if_pos rfl]
      have h2 : ¬ k0 = k' := fun hh => h hh.symm
      simp [hmLookup, h2, ih]
    · rw [if_neg hk]
      by_cases hk' : k0 = k'
      · subst hk'
        simp [hmLookup]
      · simp [hmLookup, hk', ih]

theorem hmLookup_retainAtKey_self {α : Type} [DecidableEq α]
    (l : List (α × List Nat)) (k : α) (y : Nat) :
    hmLookup (retainAtKey l k y) k =
      (hmLookup l k).map (fun v => v.filter (fun a => decide (a ≠ y))) := by
  induction l with
  | nil => rfl
  | cons hd tl ih =>
    obtain ⟨k0, v0⟩ := hd
    simp only [retainAtKey, List.map_cons, decide_not] at ih ⊢
    by_cases hk : k0 = k
    · subst hk
      rw [if_pos rfl]
      simp [hmLookup]
    · rw [if_neg hk]
      simp [hmLookup, hk, ih]

theorem hmLookup_eq_none_not_mem {α β : Type} [DecidableEq α]
    {l : List (α × β)} {k : α} (h : hmLookup l k = none) (v : β) :
    (k, v) ∉ l := by
  induction l with
  | nil => simp
  | cons hd tl ih =>
    obtain ⟨k0, v0⟩ := hd
    by_cases hk : k0 = k
    · subst hk
      rw [hmLookup, if_pos rfl] at h
      cases h
    · rw [hmLookup, if_neg hk] at h
      intro hc
      rcases List.mem_cons.mp hc with hc | hc
      · exact hk (congrArg Prod.fst hc).symm
      · exact ih h hc

theorem mem_hmInsert_of_nodup {α β : Type} [DecidableEq α]
    {l : List (α × β)} {k : α} {v : β} {e : α × β}
    (hnd : (l.map Prod.fst).Nodup) (h : e ∈ hmInsert l k v) :
    e = (k, v) ∨ (e ∈ l ∧ e.1 ≠ k) := by
  induction l with
  | nil => exact Or.inl (by simpa [hmInsert] using h)
  | cons hd tl ih =>
    obtain ⟨k0, v0⟩ := hd
    rw [List.map_cons] at hnd
    have hnd' := List.nodup_cons.mp hnd
    by_cases hk : k0 = k
    · subst hk
      rw [hmInsert, if_pos rfl] at h
      rcases List.mem_cons.mp h with h | h
      · exact Or.inl h
      · refine Or.inr ⟨List.mem_cons_of_mem _ h, ?_⟩
        intro hc
        exact hnd'.1 (List.mem_map.mpr ⟨e, h, hc⟩)
    · rw [hmInsert, if_neg hk] at h
      rcases List.mem_cons.mp h with h | h
      · exact Or.inr ⟨h ▸ List.mem_cons_self _ _, by
          subst h; exact hk⟩
      · rcases ih hnd'.2 h with h | ⟨h1, h2⟩
        · exact Or.inl h
        · exact Or.inr ⟨List.mem_cons_of_mem _ h1, h2⟩

theorem pk_mem_entry_pushToKey {α : Type} [DecidableEq α]
    {l : List (α × List Nat)} {k : α} {x pk : Nat} {e : α × List Nat}
    (hne : pk ≠ x) (he : e ∈ pushToKey l k x) (hm : pk ∈ e.2) :
    ∃ e' ∈ l, e'.1 = e.1 ∧ pk ∈ e'.2 := by
  induction l with
  | nil =>
    rw [pushToKey] at he
    rcases List.mem_singleton.mp he with rfl
    exact absurd (List.mem_singleton.mp hm) hne
  | cons hd tl ih =>
    obtain ⟨k0, v0⟩ := hd
    by_cases hk : k0 = k
    · subst hk
      rw [pushToKey, if_pos rfl] at he
      rcases List.mem_cons.mp he with rfl | he
      · rcases List.mem_append.mp hm with hm | hm
        · exact ⟨(k0, v0), List.mem_cons_self _ _, rfl, hm⟩
        · exact absurd (List.mem_singleton.mp hm) hne
      · exact ⟨e, List.mem_cons_of_mem _ he, rfl, hm⟩
    · rw [pushToKey, if_neg hk] at he
      rcases List.mem_cons.mp he with rfl | he
      · exact ⟨(k0, v0), List.mem_cons_self _ _, rfl, hm⟩
      · rcases ih he with ⟨e', he', h1, h2⟩
        exact ⟨e', List.mem_cons_of_mem _ he', h1, h2⟩

theorem mem_entry_retainAtKey {α : Type} [DecidableEq α]
    {l : List (α × List Nat)} {k : α} {y : Nat} {e : α × List Nat}
    (he : e ∈ retainAtKey l k y) :
    ∃ e' ∈ l, e'.1 = e.1 ∧ (∀ a ∈ e.2, a ∈ e'.2) ∧
      (e.1 = k → y ∉ e.2) := by
  rcases List.mem_map.mp he with ⟨e', he', hmap⟩
  obtain ⟨k0, v0⟩ := e'
  by_cases hk : k0 = k
  · subst hk
    rw [if_pos rfl] at hmap
    refine ⟨(k0, v0), he', ?_, ?_, ?_⟩
    · rw [← hmap]
    · intro a ha
      rw [← hmap] at ha
      exact List.mem_of_mem_filter ha
    · intro _ hy
      rw [← hmap] at hy
      have hpy := List.of_mem_filter hy
      simp only [decide_eq_true_eq] at hpy
      exact hpy rfl
  · rw [if_neg hk] at hmap
    subst hmap
    exact ⟨(k0, v0), he', rfl, fun a ha => ha, fun hc => absurd hc hk⟩

theorem mem_zadd {s : SortedSet} {m : Nat} {score : ℚ} {e : Nat × ℚ}
    (h : e ∈ zadd s m score) : e = (m, score) ∨ e ∈ s := by
  induction s with
  | nil => exact Or.inl (by simpa [zadd] using h)
  | cons hd tl ih =>
    obtain ⟨k0, v0⟩ := hd
    by_cases hk : k0 = m
    · subst hk
      rw [zadd, if_pos rfl] at h
      rcases List.mem_cons.mp h with h | h
      · exact Or.inl h
      · exact Or.inr (List.mem_cons_of_mem _ h)
    · rw [zadd, if_neg hk] at h
      rcases List.mem_cons.mp h with h | h
      · exact Or.inr (h ▸ List.mem_cons_self _ _)
      · rcases ih h with h | h
        · exact Or.inl h
        · exact Or.inr (List.mem_cons_of_mem _ h)

theorem mem_map_fst_zadd {s : SortedSet} {m pk : Nat} {score : ℚ}
    (h : pk ∈ (zadd s m score).map Prod.fst) :
    pk = m ∨ pk ∈ s.map Prod.fst := by
  rcases List.mem_map.mp h with ⟨e, he, hfst⟩
  rcases mem_zadd he with rfl | he'
  · exact Or.inl hfst.symm
  · exact Or.inr (hfst ▸ List.mem_map_of_mem Prod.fst he')

theorem mem_zrem {s : SortedSet} {m : Nat} {e : Nat × ℚ}
    (h : e ∈ zrem s m) : e ∈ s ∧ e.1 ≠ m := by
  induction s with
  | nil => simp [zrem] at h
  | cons hd tl ih =>
    obtain ⟨k0, v0⟩ := hd
    by_cases hk : k0 = m
    · subst hk
      rw [zrem, if_pos rfl] at h
      exact ⟨List.mem_cons_of_mem _ (ih h).1, (ih h).2⟩
    · rw [zrem, if_neg hk] at h
      rcases List.mem_cons.mp h with h | h
      · subst h
        exact ⟨List.mem_cons_self _ _, hk⟩
      · exact ⟨List.mem_cons_of_mem _ (ih h).1, (ih h).2⟩

theorem not_mem_map_fst_zrem (s : SortedSet) (m : Nat) :
    m ∉ (zrem s m).map Prod.fst := by
  intro h
  rcases List.mem_map.mp h with ⟨e, he, hfst⟩
  exact (mem_zrem he).2 hfst

/-! ### Refresh invariants

`TracksPosition st r pk pos` collects the per-identifier consistency
facts of spec §3 (the store holds `pos` under `pk`, keys are unique and
agree with the records' accounts, and `pk` appears in the indices only
under its own symbol, owner and liquidation key).  `PurgedPosition`
states that `pk` is gone from the primary map, both inverted indices and
every liquidation sorted set. -/

def TracksPosition (st : PositionStore) (r : RedisMap) (pk : Nat)
    (pos : Position) : Prop :=
  hmLookup st.positions pk = some pos ∧
  (∀ kv ∈ st.positions, (kv : Nat × Position).2.position_account = kv.1) ∧
  (st.positions.map Prod.fst).Nodup ∧
  (r.map Prod.fst).Nodup ∧
  (∀ e ∈ st.positions_by_asset,
    pk ∈ (e : String × List Nat).2 → e.1 = pos.symbol) ∧
  (∀ e ∈ st.positions_by_user,
    pk ∈ (e : Nat × List Nat).2 → e.1 = pos.owner) ∧
  (∀ e ∈ r, pk ∈ ((e : (String × Side) × SortedSet)).2.map Prod.fst →
    e.1 = (pos.symbol, pos.side))

def PurgedPosition (st : PositionStore) (r : RedisMap) (pk : Nat) : Prop :=
  hmLookup st.positions pk = none ∧
  (∀ e ∈ st.positions_by_asset, pk ∉ (e : String × List Nat).2) ∧
  (∀ e ∈ st.positions_by_user, pk ∉ (e : Nat × List Nat).2) ∧
  (∀ e ∈ r, pk ∉ ((e : (String × Side) × SortedSet)).2.map Prod.fst)

theorem tracks_update_position {st : PositionStore} {r : RedisMap}
    {pk : Nat} {pos : Position} (hT : TracksPosition st r pk pos)
    (pos' : Position) (hne : pos'.position_account ≠ pk) :
    TracksPosition (update_position st pos') r pk pos := by
  obtain ⟨h1, h2, h3, h4, h5, h6, h7⟩ := hT
  refine ⟨?_, ?_, ?_, h4, h5, h6, h7⟩
  · rw [update_position]
    exact (hmLookup_hmInsert_ne _ _ hne).trans h1
  · intro kv hkv
    rcases mem_hmInsert hkv with rfl | hkv'
    · rfl
    · exact h2 kv hkv'
  · exact nodup_keys_hmInsert _ _ _ h3

theorem tracks_add_position {st : PositionStore} {r : RedisMap}
    {pk : Nat} {pos : Position} (hT : TracksPosition st r pk pos)
    (pos' : Position) (hne : pos'.position_account ≠ pk) :
    TracksPosition (add_position st r pos').1 (add_position st r pos').2
      pk pos := by
  obtain ⟨h1, h2, h3, h4, h5, h6, h7⟩ := hT
  refine ⟨?_, ?_, ?_, ?_, ?_, ?_, ?_⟩
  · exact (hmLookup_hmInsert_ne _ _ hne).trans h1
  · intro kv hkv
    rcases mem_hmInsert hkv with rfl | hkv'
    · rfl
    · exact h2 kv hkv'
  · exact nodup_keys_hmInsert _ _ _ h3
  · show ((if pos'.is_open then add_to_redis_sorted_set r pos'
      else r).map Prod.fst).Nodup
    by_cases ho : pos'.is_open
    · simp only [ho, if_true]
      exact nodup_keys_hmInsert _ _ _ h4
    · simp only [ho, if_false]
      exact h4
  · intro e he hm
    simp only [add_position] at he
    rcases pk_mem_entry_pushToKey (Ne.symm hne) he hm with
      ⟨e', he', hfst, hm'⟩
    rw [← hfst]
    exact h5 e' he' hm'
  · intro e he hm
    simp only [add_position] at he
    rcases pk_mem_entry_pushToKey (Ne.symm hne) he hm with
      ⟨e', he', hfst, hm'⟩
    rw [← hfst]
    exact h6 e' he' hm'
  · show ∀ e ∈ (if pos'.is_open then add_to_redis_sorted_set r pos'
      else r), pk ∈ e.2.map Prod.fst → e.1 = (pos.symbol, pos.side)
    by_cases ho : pos'.is_open
    · simp only [ho, if_true]
      intro e he hm
      rcases mem_hmInsert he with rfl | he'
      · simp only at hm
        rcases mem_map_fst_zadd hm with rfl | hm'
        · exact absurd rfl hne
        · cases hlk : hmLookup r (pos'.symbol, pos'.side) with
          | none => rw [hlk] at hm'; simp at hm'
          | some s =>
            rw [hlk] at hm'
            simp only [Option.getD_some] at hm'
            exact h7 ((pos'.symbol, pos'.side), s) (hmLookup_mem hlk) hm'
      · exact h7 e he' hm
    · simp only [ho, if_false]
      exact h7

theorem purged_of_remove_tracked {st : PositionStore} {r : RedisMap}
    {pk : Nat} {pos : Position} (hT : TracksPosition st r pk pos)
    {st' : PositionStore} {r' : RedisMap}
    (hrm : remove_position st r pk = .ok (st', r')) :
    PurgedPosition st' r' pk := by
  obtain ⟨h1, h2, h3, h4, h5, h6, h7⟩ := hT
  have hpa : pos.position_account = pk := h2 (pk, pos) (hmLookup_mem h1)
  simp only [remove_position, h1, Except.ok.injEq, Prod.mk.injEq] at hrm
  obtain ⟨hst, hr⟩ := hrm
  refine ⟨?_, ?_, ?_, ?_⟩
  · rw [← hst]
    exact hmLookup_hmRemove_self _ _
  · rw [← hst]
    intro e he hm
    rcases mem_entry_retainAtKey he with ⟨e', he', hfst, hsub, hself⟩
    have := h5 e' he' (hsub pk hm)
    exact hself (hfst ▸ this) (hpa ▸ hm)
  · rw [← hst]
    intro e he hm
    rcases mem_entry_retainAtKey he with ⟨e', he', hfst, hsub, hself⟩
    have := h6 e' he' (hsub pk hm)
    exact hself (hfst ▸ this) (hpa ▸ hm)
  · rw [← hr]
    rw [remove_from_redis_sorted_set, redisZrem]
    cases hlk : hmLookup r (pos.symbol, pos.side) with
    | none =>
      intro e he hm
      have hkey : e.1 = (pos.symbol, pos.side) := h7 e he hm
      obtain ⟨e1, e2⟩ := e
      exact hmLookup_eq_none_not_mem hlk e2 (hkey ▸ he)
    | some s =>
      intro e he hm
      rcases mem_hmInsert_of_nodup h4 he with rfl | ⟨he', hne⟩
      · simp only at hm
        rw [hpa] at hm
        exact not_mem_map_fst_zrem s pk hm
      · exact hne (h7 e he' hm)

theorem purged_remove_position {st : PositionStore} {r : RedisMap}
    {pk : Nat} (hP : PurgedPosition st r pk) (a : Nat)
    {st' : PositionStore} {r' : RedisMap}
    (hrm : remove_position st r a = .ok (st', r')) :
    PurgedPosition st' r' pk := by
  obtain ⟨h1, h2, h3, h4⟩ := hP
  cases hq : hmLookup st.positions a with
  | none => simp [remove_position, hq] at hrm
  | some q =>
    simp only [remove_position, hq, Except.ok.injEq, Prod.mk.injEq] at hrm
    obtain ⟨hst, hr⟩ := hrm
    refine ⟨?_, ?_, ?_, ?_⟩
    · rw [← hst]
      by_cases ha : a = pk
      · subst ha
        exact hmLookup_hmRemove_self _ _
      · exact (hmLookup_hmRemove_ne _ ha).trans h1
    · rw [← hst]
      intro e he hm
      rcases mem_entry_retainAtKey he with ⟨e', he', _, hsub, _⟩
      exact h2 e' he' (hsub pk hm)
    · rw [← hst]
      intro e he hm
      rcases mem_entry_retainAtKey he with ⟨e', he', _, hsub, _⟩
      exact h3 e' he' (hsub pk hm)
    · rw [← hr]
      rw [remove_from_redis_sorted_set, redisZrem]
      cases hlk : hmLookup r (q.symbol, q.side) with
      | none => exact h4
      | some s =>
        intro e he hm
        rcases mem_hmInsert he with rfl | he'
        · simp only at hm
          rcases List.mem_map.mp hm with ⟨ee, hee, hfst⟩
          have := h4 ((q.symbol, q.side), s) (hmLookup_mem hlk)
          exact this (hfst ▸ List.mem_map_of_mem Prod.fst (mem_zrem hee).1)
        · exact h4 e he' hm

theorem tracks_remove_other {st : PositionStore} {r : RedisMap}
    {pk : Nat} {pos : Position} (hT : TracksPosition st r pk pos)
    {a : Nat} (ha : a ≠ pk) {st' : PositionStore} {r' : RedisMap}
    (hrm : remove_position st r a = .ok (st', r')) :
    TracksPosition st' r' pk pos := by
  obtain ⟨h1, h2, h3, h4, h5, h6, h7⟩ := hT
  cases hq : hmLookup st.positions a with
  | none => simp [remove_position, hq] at hrm
  | some q =>
    simp only [remove_position, hq, Except.ok.injEq, Prod.mk.injEq] at hrm
    obtain ⟨hst, hr⟩ := hrm
    refine ⟨?_, ?_, ?_, ?_, ?_, ?_, ?_⟩
    · rw [← hst]
      exact (hmLookup_hmRemove_ne _ ha).trans h1
    · rw [← hst]
      intro kv hkv
      exact h2 kv (mem_hmRemove hkv)
    · rw [← hst]
      exact nodup_keys_hmRemove _ _ h3
    · rw [← hr]
      rw [remove_from_redis_sorted_set, redisZrem]
      cases hlk : hmLookup r (q.symbol, q.side) with
      | none => exact h4
      | some s => exact nodup_keys_hmInsert _ _ _ h4
    · rw [← hst]
      intro e he hm
      rcases mem_entry_retainAtKey he with ⟨e', he', hfst, hsub, _⟩
      rw [← hfst]
      exact h5 e' he' (hsub pk hm)
    · rw [← hst]
      intro e he hm
      rcases mem_entry_retainAtKey he with ⟨e', he', hfst, hsub, _⟩
      rw [← hfst]
      exact h6 e' he' (hsub pk hm)
    · rw [← hr]
      rw [remove_from_redis_sorted_set, redisZrem]
      cases hlk : hmLookup r (q.symbol, q.side) with
      | none => exact h7
      | some s =>
        intro e he hm
        rcases mem_hmInsert_of_nodup h4 he with rfl | ⟨he', _⟩
        · simp only at hm
          rcases List.mem_map.mp hm with ⟨ee, hee, hfst⟩
          have hin : pk ∈ s.map Prod.fst :=
            hfst ▸ List.mem_map_of_mem Prod.fst (mem_zrem hee).1
          exact h7 ((q.symbol, q.side), s) (hmLookup_mem hlk) hin
        · exact h7 e he' hm

theorem sweep_preserves_purged (seen : List Nat) (pk : Nat) :
    ∀ (L : List Position) (st : PositionStore) (r : RedisMap),
      PurgedPosition st r pk →
      PurgedPosition (refresh_sweep seen L (st, r)).1
        (refresh_sweep seen L (st, r)).2 pk := by
  intro L
  induction L with
  | nil => intro st r h; simpa [refresh_sweep] using h
  | cons p rest ih =>
    intro st r h
    simp only [refresh_sweep]
    split
    · split
      · next sr' heq =>
          exact ih sr'.1 sr'.2 (purged_remove_position h _ heq)
      · exact ih st r h
    · exact ih st r h

theorem sweep_purges (seen : List Nat) (pk : Nat) (pos : Position)
    (hseen : pk ∉ seen) (hopen : pos.is_open = true) :
    ∀ (L : List Position) (st : PositionStore) (r : RedisMap),
      TracksPosition st r pk pos → pos ∈ L →
      PurgedPosition (refresh_sweep seen L (st, r)).1
        (refresh_sweep seen L (st, r)).2 pk := by
  intro L
  induction L with
  | nil => intro st r _ hmem; simp at hmem
  | cons p rest ih =>
    intro st r hT hmem
    have hpa : pos.position_account = pk :=
      hT.2.1 (pk, pos) (hmLookup_mem hT.1)
    simp only [refresh_sweep]
    split
    · next hcond =>
        by_cases hppk : p.position_account = pk
        · rw [hppk]
          cases hrm : remove_position st r pk with
          | ok sr' =>
            exact sweep_preserves_purged seen pk rest sr'.1 sr'.2
              (purged_of_remove_tracked hT hrm)
          | error e =>
            simp [remove_position, hT.1] at hrm
        · have hppos : p ≠ pos := fun he => hppk (he ▸ hpa)
          have hmem' : pos ∈ rest := by
            rcases List.mem_cons.mp hmem with he | he
            · exact absurd he.symm hppos
            · exact he
          cases hrm : remove_position st r p.position_account with
          | ok sr' =>
            exact ih sr'.1 sr'.2 (tracks_remove_other hT hppk hrm) hmem'
          | error e => exact ih st r hT hmem'
    · next hcond =>
        have hppos : p ≠ pos := by
          intro he
          subst he
          exact hcond ⟨hpa ▸ hseen, hopen⟩
        have hmem' : pos ∈ rest := by
          rcases List.mem_cons.mp hmem with he | he
          · exact absurd he.symm hppos
          · exact he
        exact ih st r hT hmem'

theorem scan_preserves_tracks (pk : Nat) (pos : Position) :
    ∀ (accounts : List (Nat × List Nat)) (st : PositionStore)
      (r : RedisMap),
      pk ∉ seen_of accounts → TracksPosition st r pk pos →
      TracksPosition (refresh_scan accounts (st, r)).1
        (refresh_scan accounts (st, r)).2 pk pos := by
  intro accounts
  induction accounts with
  | nil => intro st r _ hT; simpa [refresh_scan] using hT
  | cons a rest ih =>
    intro st r hseen hT
    obtain ⟨pk', data⟩ := a
    rcases hdec : deserialize_position_account data with e | ⟨idx, ocp⟩
    · have hseen' : pk ∉ seen_of rest := by
        simpa [seen_of, List.filterMap_cons, hdec] using hseen
      simpa [refresh_scan, hdec] using ih st r hseen' hT
    · have hs : seen_of ((pk', data) :: rest) = pk' :: seen_of rest := by
        simp [seen_of, List.filterMap_cons, hdec]
      rw [hs] at hseen
      have hne : pk' ≠ pk := fun he => hseen (he ▸ List.mem_cons_self _ _)
      have hseen' : pk ∉ seen_of rest :=
        fun hc => hseen (List.mem_cons_of_mem _ hc)
      have hacct : (to_domain_position ocp pk' idx).position_account = pk' :=
        rfl
      simp only [refresh_scan, hdec]
      split
      · exact ih _ _ hseen'
          (tracks_update_position hT _ (fun hc => hne (hacct ▸ hc)))
      · exact ih _ _ hseen'
          (tracks_add_position hT _ (fun hc => hne (hacct ▸ hc)))

/-! ## C4 -/

/-- Claim C4: after a refresh cycle, every position that was stored
open but whose identifier was not seen in the cycle's scan has been
removed: its primary-map lookup is `none`, its identifier appears in no
by-symbol or by-owner index vector, and it is a member of no sorted set
of the liquidation index.  The hypotheses are the spec §3 store
invariants restricted to the identifier (`TracksPosition`). -/
theorem claim_C4_refresh_removes_stale (st : PositionStore) (r : RedisMap)
    (accounts : List (Nat × List Nat)) (pk : Nat) (pos : Position)
    (hT : TracksPosition st r pk pos) (hopen : pos.is_open = true)
    (hseen : pk ∉ seen_of accounts) :
    hmLookup (refresh_positions_from_chain st r accounts).1.positions pk =
      none ∧
    (∀ e ∈ (refresh_positions_from_chain st r accounts).1.positions_by_asset,
      pk ∉ (e : String × List Nat).2) ∧
    (∀ e ∈ (refresh_positions_from_chain st r accounts).1.positions_by_user,
      pk ∉ (e : Nat × List Nat).2) ∧
    (∀ e ∈ (refresh_positions_from_chain st r accounts).2,
      pk ∉ ((e : (String × Side) × SortedSet)).2.map Prod.fst) := by
  have hT1 := scan_preserves_tracks pk pos accounts st r hseen hT
  have hmem : pos ∈ (refresh_scan accounts (st, r)).1.positions.map
      Prod.snd :=
    List.mem_map_of_mem Prod.snd (hmLookup_mem hT1.1)
  have hmain := sweep_purges (seen_of accounts) pk pos hseen hopen
    ((refresh_scan accounts (st, r)).1.positions.map Prod.snd)
    (refresh_scan accounts (st, r)).1 (refresh_scan accounts (st, r)).2
    hT1 hmem
  exact hmain

/-- Witness for C4: a store holding the single open position `c8Pos`
under id 7 (indexed under its symbol, owner and liquidation key) loses
it entirely when a refresh cycle scans an empty account list. -/
theorem claim_C4_witness :
    hmLookup (refresh_positions_from_chain
      ⟨[(7, c8Pos)], [("BTC-USD", [7])], [(3, [7])]⟩
      [(("BTC-USD", Side.Long), [(7, 46250)])] []).1.positions 7 =
      none := by
  have hT : TracksPosition ⟨[(7, c8Pos)], [("BTC-USD", [7])], [(3, [7])]⟩
      [(("BTC-USD", Side.Long), [(7, 46250)])] 7 c8Pos := by
    refine ⟨rfl, ?_, by simp, by simp, ?_, ?_, ?_⟩
    · intro kv h
      obtain rfl := List.mem_singleton.mp h
      rfl
    · intro e h _
      obtain rfl := List.mem_singleton.mp h
      rfl
    · intro e h _
      obtain rfl := List.mem_singleton.mp h
      rfl
    · intro e h _
      obtain rfl := List.mem_singleton.mp h
      rfl
  exact (claim_C4_refresh_removes_stale
    ⟨[(7, c8Pos)], [("BTC-USD", [7])], [(3, [7])]⟩
    [(("BTC-USD", Side.Long), [(7, 46250)])] [] 7 c8Pos hT rfl
    (by simp [seen_of])).1

/-! ## Position manager (backend/src/services/position_manager.rs) and
on-chain slippage validation
(position-management-system/src/utils.rs)

`open_position` is a pure function of its arguments plus: the result of
the user-account fetch (`get_user_account`) and the PDA derivation
(`Pubkey::find_program_address`, passed in as an abstract function
`pda : owner → index → address`; its bump output and the byte-level
instruction serialization and transaction signing are not modelled —
the instruction's argument record stands for the submitted
instruction). -/

theorem error_bind {ε α β : Type} (e : ε) (f : α → Except ε β) :
    (Except.error e >>= f) = .error e := rfl

theorem ok_bind {ε α β : Type} (a : α) (f : α → Except ε β) :
    (Except.ok a >>= f) = f a := rfl

/-- Mirrored on-chain user account (`UserAccountData`). -/
structure UserAccountData where
  owner : Nat
  total_collateral : Nat
  locked_collateral : Nat
  total_pnl : Int
  position_count : Nat
  position_count_total : Nat
  bump : Nat
  deriving Repr, DecidableEq

/-- `get_next_position_index`: the mirrored account's
`position_count_total`, or 0 when the fetch failed for any reason. -/
def get_next_position_index (fetched : Except String UserAccountData) :
    Except String Nat :=
  match fetched with
  | .ok user_account => .ok user_account.position_count_total
  | .error _ => .ok 0

/-- `decimal_to_u64`: scale by `10^precision` and truncate to u64;
fails when the scaled value is negative or does not fit. -/
def decimal_to_u64 (decimal : ℚ) (precision : Nat) : Except String Nat :=
  let scaled := decimal * 10 ^ precision
  if scaled < 0 ∨ (2 ^ 64 : ℚ) ≤ scaled then
    .error "Cannot convert decimal to u64"
  else
    .ok ⌊scaled⌋.toNat

/-- The OpenPosition instruction's argument record, in serialization
order after `DISCRIMINATOR_OPEN_POSITION` (symbol length + bytes, side
byte, u64 size, u16 leverage, u64 entry price).  Note there is no
expected-price or max-slippage argument. -/
structure OpenPositionInstr where
  symbol : String
  side : Side
  size : Nat
  leverage : Nat
  entry_price : Nat
  deriving Repr, DecidableEq

/-- `PositionManager::open_position`: convert the decimals, precompute
margin and liquidation price, derive the next index (0 on fetch
failure) and the position PDA, build and submit the instruction, then
construct the domain position and register it with the monitor.  The
returned tuple carries the position, the submitted instruction and the
store and Redis state after `add_position`. -/
def open_position (pda : Nat → Nat → Nat)
    (user_account_fetch : Except String UserAccountData)
    (st : PositionStore) (r : RedisMap) (owner : Nat) (symbol : String)
    (side : Side) (size : ℚ) (leverage : Nat) (entry_price : ℚ)
    (maintenance_margin_ratio : ℚ) :
    Except String (Position × OpenPositionInstr × PositionStore ×
      RedisMap) := do
  let size_u64 ← decimal_to_u64 size 8
  let entry_price_u64 ← decimal_to_u64 entry_price 6
  let margin ← MarginCalculator.calculate_initial_margin size entry_price
    leverage
  let liquidation_price ← MarginCalculator.calculate_liquidation_price side
    entry_price leverage maintenance_margin_ratio
  let position_index ← get_next_position_index user_account_fetch
  let position_account := pda owner position_index
  let instruction : OpenPositionInstr :=
    ⟨symbol, side, size_u64, leverage, entry_price_u64⟩
  let position : Position :=
    { position_index := position_index, owner := owner,
      position_account := position_account, symbol := symbol,
      side := side, size := size, entry_price := entry_price,
      mark_price := entry_price, margin := margin, leverage := leverage,
      unrealized_pnl := 0, realized_pnl := 0, funding_accrued := 0,
      liquidation_price := liquidation_price, status := .Open }
  let sr := add_position st r position
  return (position, instruction, sr.1, sr.2)

/-- On-chain error kinds reachable from `validate_slippage`. -/
inductive PositionError
  | ArithmeticOverflow
  | SlippageExceeded
  deriving Repr, DecidableEq

/-- On-chain `validate_slippage`: u64 arithmetic with a u128
intermediate (which cannot overflow for u64 inputs, so only the
division by `expected_price = 0` raises `ArithmeticOverflow`), floor
division, and the `as u16` cast modelled as `% 65536`. -/
def validate_slippage (expected_price actual_price : Nat)
    (max_slippage_bps : Nat) (side : Side) : Except PositionError Unit :=
  let price_diff := if actual_price > expected_price
    then actual_price - expected_price
    else expected_price - actual_price
  if expected_price = 0 then .error .ArithmeticOverflow
  else
    let slippage_bps := price_diff * 10000 / expected_price % 65536
    if slippage_bps ≤ max_slippage_bps then
      match side with
      | .Long =>
        if actual_price > expected_price then
          let unfavorable_slippage :=
            (actual_price - expected_price) * 10000 / expected_price %
              65536
          if unfavorable_slippage ≤ max_slippage_bps then .ok ()
          else .error .SlippageExceeded
        else .ok ()
      | .Short =>
        if actual_price < expected_price then
          let unfavorable_slippage :=
            (expected_price - actual_price) * 10000 / expected_price %
              65536
          if unfavorable_slippage ≤ max_slippage_bps then .ok ()
          else .error .SlippageExceeded
        else .ok ()
    else .error .SlippageExceeded

theorem decimal_to_u64_error {d : ℚ} {p : Nat} {e : String}
    (h : decimal_to_u64 d p = .error e) :
    e = "Cannot convert decimal to u64" := by
  rw [decimal_to_u64] at h
  split at h
  · injection h with h
    exact h.symm
  · cases h

theorem initial_margin_error {size entry : ℚ} {lev : Nat} {e : String}
    (h : MarginCalculator.calculate_initial_margin size entry lev =
      .error e) :
    e = "Leverage cannot be zero" := by
  rw [MarginCalculator.calculate_initial_margin] at h
  split at h
  · injection h with h
    exact h.symm
  · cases h

theorem liquidation_price_error {side : Side} {entry mmr : ℚ} {lev : Nat}
    {e : String}
    (h : MarginCalculator.calculate_liquidation_price side entry lev mmr =
      .error e) :
    e = "Leverage cannot be zero" := by
  cases side <;>
    [rw [MarginCalculator.calculate_liquidation_price,
      MarginCalculator.calculate_liquidation_price_long] at h;
     rw [MarginCalculator.calculate_liquidation_price,
      MarginCalculator.calculate_liquidation_price_short] at h] <;>
    · split at h
      · injection h with h
        exact h.symm
      · cases h

theorem get_next_position_index_ne_error
    (fetched : Except String UserAccountData) (e : String) :
    get_next_position_index fetched ≠ .error e := by
  cases fetched <;> simp [get_next_position_index]

theorem except_bind_eq_ok {ε α β : Type} {x : Except ε α}
    {f : α → Except ε β} {y : β} (h : (x >>= f) = .ok y) :
    ∃ a, x = .ok a ∧ f a = .ok y := by
  cases x with
  | error e => rw [error_bind] at h; cases h
  | ok a => exact ⟨a, rfl, by rwa [ok_bind] at h⟩

theorem except_bind_eq_error {ε α β : Type} {x : Except ε α}
    {f : α → Except ε β} {e : ε} (h : (x >>= f) = .error e) :
    x = .error e ∨ ∃ a, x = .ok a ∧ f a = .error e := by
  cases x with
  | error e' =>
    rw [error_bind] at h
    injection h with h
    exact Or.inl (by rw [h])
  | ok a => exact Or.inr ⟨a, rfl, by rwa [ok_bind] at h⟩

/-- Evaluation of a successful `open_position`. -/
theorem open_position_eval (pda : Nat → Nat → Nat)
    (fetch : Except String UserAccountData) (st : PositionStore)
    (r : RedisMap) (owner : Nat) (symbol : String) (side : Side)
    (size : ℚ) (leverage : Nat) (entry : ℚ) (mmr : ℚ)
    {s64 e64 idx : Nat} {margin liq : ℚ}
    (h1 : decimal_to_u64 size 8 = .ok s64)
    (h2 : decimal_to_u64 entry 6 = .ok e64)
    (h3 : MarginCalculator.calculate_initial_margin size entry leverage =
      .ok margin)
    (h4 : MarginCalculator.calculate_liquidation_price side entry leverage
      mmr = .ok liq)
    (h5 : get_next_position_index fetch = .ok idx) :
    open_position pda fetch st r owner symbol side size leverage entry
        mmr =
      .ok (⟨idx, owner, pda owner idx, symbol, side, size, entry, entry,
          margin, leverage, 0, 0, 0, liq, .Open⟩,
        ⟨symbol, side, s64, leverage, e64⟩,
        (add_position st r ⟨idx, owner, pda owner idx, symbol, side, size,
          entry, entry, margin, leverage, 0, 0, 0, liq, .Open⟩).1,
        (add_position st r ⟨idx, owner, pda owner idx, symbol, side, size,
          entry, entry, margin, leverage, 0, 0, 0, liq, .Open⟩).2) := by
  rw [open_position, h1, ok_bind, h2, ok_bind, h3, ok_bind, h4, ok_bind,
    h5, ok_bind]
  rfl

/-- Characterization of `open_position` failures: the only error
messages are the decimal-conversion failure and the zero-leverage
failure.  In particular no slippage error exists in the submitter. -/
theorem open_position_error_messages (pda : Nat → Nat → Nat)
    (fetch : Except String UserAccountData) (st : PositionStore)
    (r : RedisMap) (owner : Nat) (symbol : String) (side : Side)
    (size : ℚ) (leverage : Nat) (entry : ℚ) (mmr : ℚ) (e : String)
    (h : open_position pda fetch st r owner symbol side size leverage
      entry mmr = .error e) :
    e = "Cannot convert decimal to u64" ∨
      e = "Leverage cannot be zero" := by
  rw [open_position] at h
  rcases except_bind_eq_error h with h1 | ⟨s64, h1, h⟩
  · exact Or.inl (decimal_to_u64_error h1)
  rcases except_bind_eq_error h with h2 | ⟨e64, h2, h⟩
  · exact Or.inl (decimal_to_u64_error h2)
  rcases except_bind_eq_error h with h3 | ⟨margin, h3, h⟩
  · exact Or.inr (initial_margin_error h3)
  rcases except_bind_eq_error h with h4 | ⟨liq, h4, h⟩
  · exact Or.inr (liquidation_price_error h4)
  rcases except_bind_eq_error h with h5 | ⟨idx, h5, h⟩
  · exact absurd h5 (get_next_position_index_ne_error fetch e)
  · cases h

/-! ## C10 -/

/-- Claim C10: if the mirrored-user-account fetch fails for any reason,
`get_next_position_index` returns 0 instead of propagating the error,
and any successful `open_position` built on that failed fetch uses
`position_index = 0` and the PDA derived for index 0. -/
theorem claim_C10_fetch_failure_index_zero (pda : Nat → Nat → Nat)
    (e : String) (st : PositionStore) (r : RedisMap) (owner : Nat)
    (symbol : String) (side : Side) (size : ℚ) (leverage : Nat)
    (entry mmr : ℚ) :
    get_next_position_index (.error e) = .ok 0 ∧
    (∀ out, open_position pda (.error e) st r owner symbol side size
        leverage entry mmr = .ok out →
      out.1.position_index = 0 ∧ out.1.position_account = pda owner 0) := by
  refine ⟨rfl, ?_⟩
  intro out hres
  rw [open_position] at hres
  obtain ⟨s64, h1, hres⟩ := except_bind_eq_ok hres
  obtain ⟨e64, h2, hres⟩ := except_bind_eq_ok hres
  obtain ⟨margin, h3, hres⟩ := except_bind_eq_ok hres
  obtain ⟨liq, h4, hres⟩ := except_bind_eq_ok hres
  obtain ⟨idx, h5, hres⟩ := except_bind_eq_ok hres
  have hidx : idx = 0 := by
    rw [get_next_position_index] at h5
    exact (Option.some_inj.mp (by
      injection h5 with h5
      exact congrArg some h5)).symm
  subst hidx
  have hout : ((⟨0, owner, pda owner 0, symbol, side, size, entry, entry,
      margin, leverage, 0, 0, 0, liq, .Open⟩ : Position),
      (⟨symbol, side, s64, leverage, e64⟩ : OpenPositionInstr),
      (add_position st r ⟨0, owner, pda owner 0, symbol, side, size,
        entry, entry, margin, leverage, 0, 0, 0, liq, .Open⟩).1,
      (add_position st r ⟨0, owner, pda owner 0, symbol, side, size,
        entry, entry, margin, leverage, 0, 0, 0, liq, .Open⟩).2) = out :=
    Except.ok.inj hres
  rw [← hout]
  exact ⟨rfl, rfl⟩

/-- Witness for C10 at a concrete failed fetch: index 0 and the PDA for
(owner 1, index 0) are used, and the open succeeds. -/
theorem claim_C10_witness :
    get_next_position_index (.error "account not found") = .ok 0 ∧
    ∃ out, open_position (fun o i => 1000 + o + i)
        (.error "account not found") ⟨[], [], []⟩ [] 1 "BTC-USD" .Long 1
        10 50000 (1/40) = .ok out ∧
      out.1.position_index = 0 ∧ out.1.position_account = 1001 := by
  have h1 : decimal_to_u64 1 8 = .ok 100000000 := by
    rw [decimal_to_u64]
    rw [if_neg (by norm_num)]
    norm_num
    rfl
  have h2 : decimal_to_u64 50000 6 = .ok 50000000000 := by
    rw [decimal_to_u64]
    rw [if_neg (by norm_num)]
    norm_num
    rfl
  have h3 : MarginCalculator.calculate_initial_margin 1 50000 10 =
      .ok 5000 := by
    rw [MarginCalculator.calculate_initial_margin]
    norm_num
  have h4 : MarginCalculator.calculate_liquidation_price .Long 50000 10
      (1/40) = .ok 46250 := by
    rw [MarginCalculator.calculate_liquidation_price,
      MarginCalculator.calculate_liquidation_price_long]
    norm_num
  have heval := open_position_eval (fun o i => 1000 + o + i)
    (.error "account not found") ⟨[], [], []⟩ [] 1 "BTC-USD" .Long 1 10
    50000 (1/40) h1 h2 h3 h4 rfl
  have H := claim_C10_fetch_failure_index_zero (fun o i => 1000 + o + i)
    "account not found" ⟨[], [], []⟩ [] 1 "BTC-USD" .Long 1 10 50000
    (1/40)
  refine ⟨H.1, _, heval, (H.2 _ heval).1, ?_⟩
  rw [(H.2 _ heval).2]

/-! ## C2 -/

/-- Claim C2 counterexample: the S6 scenario.  An open_position request
whose price (50300) deviates from an intended expected price of 50000
by 60 bps — beyond a 50 bps limit — is not rejected: the submitter has
no expected-price or max-slippage parameter at all, the instruction is
submitted, the call succeeds, and the position is registered in the
store. -/
theorem claim_C2_counterexample :
    (50300 - 50000) * 10000 / 50000 > (50 : Nat) ∧
    ∃ out, open_position (fun o i => 1000 + o + i) (.error "no user")
        ⟨[], [], []⟩ [] 1 "BTC-USD" .Long 1 10 50300 (1/40) =
      .ok out := by
  refine ⟨by norm_num, ?_⟩
  have h1 : decimal_to_u64 1 8 = .ok 100000000 := by
    rw [decimal_to_u64]
    rw [if_neg (by norm_num)]
    norm_num
    rfl
  have h2 : decimal_to_u64 50300 6 = .ok 50300000000 := by
    rw [decimal_to_u64]
    rw [if_neg (by norm_num)]
    norm_num
    rfl
  have h3 : MarginCalculator.calculate_initial_margin 1 50300 10 =
      .ok 5030 := by
    rw [MarginCalculator.calculate_initial_margin]
    norm_num
  have h4 : MarginCalculator.calculate_liquidation_price .Long 50300 10
      (1/40) = .ok (93055/2) := by
    rw [MarginCalculator.calculate_liquidation_price,
      MarginCalculator.calculate_liquidation_price_long]
    norm_num
  exact ⟨_, open_position_eval (fun o i => 1000 + o + i) (.error "no user")
    ⟨[], [], []⟩ [] 1 "BTC-USD" .Long 1 10 50300 (1/40) h1 h2 h3 h4 rfl⟩

/-- Claim C2 (amended): the backend submitter performs no slippage
validation — its only failure modes are decimal-conversion failure and
zero leverage, never a slippage error.  The slippage rule lives in the
on-chain program's `validate_slippage`, which (for a nonzero expected
price) rejects with `SlippageExceeded` exactly when
`|actual − expected|·10000/expected`, computed with truncating division
and reduced modulo 2^16 by the `as u16` cast, exceeds
`max_slippage_bps`; the unfavorable-direction re-check compares the same
quantity and never rejects on its own.  An expected price of zero fails
with `ArithmeticOverflow`. -/
theorem claim_C2_amended_slippage_guard (pda : Nat → Nat → Nat)
    (fetch : Except String UserAccountData) (st : PositionStore)
    (r : RedisMap) (owner : Nat) (symbol : String) (side : Side)
    (size : ℚ) (leverage : Nat) (entry mmr : ℚ)
    (expected actual max_bps : Nat) (sd : Side) :
    (∀ e, open_position pda fetch st r owner symbol side size leverage
        entry mmr = .error e →
      e = "Cannot convert decimal to u64" ∨
        e = "Leverage cannot be zero") ∧
    (expected = 0 →
      validate_slippage expected actual max_bps sd =
        .error .ArithmeticOverflow) ∧
    (expected ≠ 0 →
      ((if actual > expected then actual - expected
          else expected - actual) * 10000 / expected % 65536 ≤ max_bps →
        validate_slippage expected actual max_bps sd = .ok ()) ∧
      (max_bps < (if actual > expected then actual - expected
          else expected - actual) * 10000 / expected % 65536 →
        validate_slippage expected actual max_bps sd =
          .error .SlippageExceeded)) := by
  refine ⟨?_, ?_, ?_⟩
  · intro e h
    exact open_position_error_messages pda fetch st r owner symbol side
      size leverage entry mmr e h
  · intro h0
    simp [validate_slippage, h0]
  · intro hne
    constructor
    · intro hle
      cases sd
      · by_cases hgt : actual > expected
        · rw [if_pos hgt] at hle
          simp [validate_slippage, hne, hgt, hle]
        · rw [if_neg hgt] at hle
          simp [validate_slippage, hne, hgt, hle]
      · by_cases hgt : actual > expected
        · rw [if_pos hgt] at hle
          have hlt : ¬ actual < expected := by omega
          simp [validate_slippage, hne, hgt, hle, hlt]
        · rw [if_neg hgt] at hle
          by_cases hlt : actual < expected
          · simp [validate_slippage, hne, hgt, hle, hlt]
          · simp [validate_slippage, hne, hgt, hle, hlt]
    · intro hgt2
      have hnle : ¬ ((if actual > expected then actual - expected
          else expected - actual) * 10000 / expected % 65536 ≤ max_bps) :=
        by omega
      by_cases hgt : actual > expected
      · rw [if_pos hgt] at hnle
        simp [validate_slippage, hne, hgt, hnle]
      · rw [if_neg hgt] at hnle
        simp [validate_slippage, hne, hgt, hnle]

/-- Witness for the amended C2: at expected 50000 and a 50 bps limit,
the on-chain guard rejects an actual price of 50300 (60 bps) with
`SlippageExceeded` and accepts 50020 (4 bps). -/
theorem claim_C2_amended_witness :
    validate_slippage 50000 50300 50 .Long = .error .SlippageExceeded ∧
    validate_slippage 50000 50020 50 .Long = .ok () := by
  have H := claim_C2_amended_slippage_guard (fun o i => 1000 + o + i)
    (.error "no user") ⟨[], [], []⟩ [] 1 "BTC-USD" .Long 1 10 50000
    (1/40) 50000 50300 50 .Long
  have H2 := claim_C2_amended_slippage_guard (fun o i => 1000 + o + i)
    (.error "no user") ⟨[], [], []⟩ [] 1 "BTC-USD" .Long 1 10 50000
    (1/40) 50000 50020 50 .Long
  exact ⟨(H.2.2 (by decide)).2 (by decide),
    (H2.2.2 (by decide)).1 (by decide)⟩
